import Mathlib

/-!
Shallow embedding of the `bfs-search` repository.

The repository contains two variants of the same frontier-driven search:
`src/bfs-search.ts` (simulated-data variant, namespace `Bfs` below) and
`src/unnamed/part_000` (live-API variant, namespace `Live` below).
JavaScript strings are modelled by `String`, JS `Set`/`Map` by insertion-ordered
lists, and the `async` control flow by explicit state passing.  External
collaborators (the HTTP data source, the validation endpoint, the advisory
model) are modelled as oracle parameters.  Every external interaction is
recorded in an event log so that temporal claims can be stated over runs.
-/

namespace BfsSearch

/-! ### JavaScript string primitives (ASCII fragment)

`startsWithChars`/`hasSubChars` model `String.prototype.includes`
(case-sensitive substring containment); `upChar`/`up` model
`String.prototype.toUpperCase` on the ASCII range, which covers every
string constant appearing in the repository. -/

def startsWithChars : List Char → List Char → Bool
  | [], _ => true
  | _ :: _, [] => false
  | a :: as, b :: bs => a == b && startsWithChars as bs

def hasSubChars (needle : List Char) : List Char → Bool
  | [] => startsWithChars needle []
  | c :: rest => startsWithChars needle (c :: rest) || hasSubChars needle rest

/-- JS `s.includes(sub)`: case-sensitive substring test. -/
def strIncludes (s sub : String) : Bool := hasSubChars sub.data s.data

/-- ASCII uppercasing of one character, as `toUpperCase` acts on `a`..`z`. -/
def upChar (c : Char) : Char :=
  if 97 ≤ c.toNat ∧ c.toNat ≤ 122 then Char.ofNat (c.toNat - 32) else c

/-- JS `s.toUpperCase()` on ASCII strings. -/
def up (s : String) : String := ⟨s.data.map upChar⟩

/-- Splits a character list at whitespace, dropping empty pieces; `cur`
accumulates the current token in reverse. -/
def jsTokensAux : List Char → List Char → List String
  | [], cur => if cur.isEmpty then [] else [⟨cur.reverse⟩]
  | c :: rest, cur =>
    if c.isWhitespace then
      if cur.isEmpty then jsTokensAux rest []
      else String.mk cur.reverse :: jsTokensAux rest []
    else jsTokensAux rest (c :: cur)

/-- JS `s.trim().split(/\s+/).filter(t => t.length > 0)`. -/
def jsTokens (s : String) : List String := jsTokensAux s.data []

/-- JS `s.trim()`: strips leading and trailing whitespace. -/
def jsTrim (s : String) : String :=
  ⟨((s.data.dropWhile Char.isWhitespace).reverse.dropWhile Char.isWhitespace).reverse⟩

/-- JS `Map.set`: overwrite in place if the key exists, else append. -/
def setAssoc (m : List (String × List String)) (k : String) (v : List String) :
    List (String × List String) :=
  if m.any (fun p => p.1 == k) then m.map (fun p => if p.1 == k then (k, v) else p)
  else m ++ [(k, v)]

/-! ### The simulated-data variant, `src/bfs-search.ts` -/

namespace Bfs

/-- `INITIAL_CITIES = new Set([CITIES.GDANSK, CITIES.POZNAN])`, i.e. the
mixed-case display names `'Gdansk'` and `'Poznan'`. -/
def INITIAL_CITIES : List String := ["Gdansk", "Poznan"]

/-- `CORRECT_ANSWER = 'OLSZTYN'`. -/
def CORRECT_ANSWER : String := "OLSZTYN"

/-- `SIMULATED_DATA.people`. -/
def SIMULATED_people : List (String × List String) :=
  [("MONIKA", ["GDANSK"]),
   ("PAWEL", ["GDANSK", "POZNAN"]),
   ("MARCIN", ["POZNAN"]),
   ("TOMASZ", ["SZCZECIN", "POZNAN", "WROCLAW"]),
   ("ECHO", ["GDANSK", "POZNAN", "WARSZAWA", "WROCLAW", "OLSZTYN"]),
   ("GHOST", ["SZCZECIN", "WROCLAW", "OLSZTYN"])]

/-- `SIMULATED_DATA.places`. -/
def SIMULATED_places : List (String × List String) :=
  [("GDANSK", ["MONIKA", "PAWEL", "ECHO"]),
   ("POZNAN", ["PAWEL", "MARCIN", "TOMASZ", "ECHO"]),
   ("SZCZECIN", ["TOMASZ", "GHOST"]),
   ("WARSZAWA", ["ECHO"]),
   ("WROCLAW", ["TOMASZ", "ECHO", "GHOST"]),
   ("OLSZTYN", ["ECHO", "GHOST"])]

/-- `SIMULATED_DATA.people[key] ?? null` / `.places[key] ?? null`. -/
def lookupTable (t : List (String × List String)) (k : String) : Option (List String) :=
  (t.find? (fun p => p.1 == k)).map (fun p => p.2)

inductive Endpoint | people | places
deriving DecidableEq, Repr

inductive NodeType | city | person
deriving DecidableEq, Repr

structure QueueNode where
  type : NodeType
  value : String
deriving DecidableEq, Repr

/-- One entry per observable interaction of a run:
`lookup` = a simulated-data lookup actually performed (cache miss in
`getData`), `advise` = a call to `askModel`, `validate` = a call to
`testLocation` together with its result, `enqueue` = a `queue.push`. -/
inductive Event
  | lookup (e : Endpoint) (q : String)
  | advise
  | validate (c : String) (ok : Bool)
  | enqueue (t : NodeType) (v : String)
deriving DecidableEq, Repr

/-- The mutable `knowledgeBase` object (the `context` string only feeds
prompt text and is omitted). -/
structure KB where
  peopleLocations : List (String × List String)
  cityPeople : List (String × List String)
  visitedCities : List String
  visitedPeople : List String
  testedLocations : List String
  failedQueries : List String
deriving DecidableEq, Repr

def KB.init : KB := ⟨[], [], [], [], [], []⟩

structure GDOut where
  res : Option (List String)
  kb : KB
  evs : List Event
deriving Repr, DecidableEq

/-- The `result` computed inside `getData`: the simulated table lookup of the
upper-cased query. -/
def simData : Endpoint → String → Option (List String)
  | .people, q => lookupTable SIMULATED_people (up q)
  | .places, q => lookupTable SIMULATED_places (up q)

/-- `getData(endpoint, query)` of `bfs-search.ts`: failure-cache check on the
raw query string, then a lookup of the upper-cased query in the simulated
tables; a missing or empty entry records the raw query into `failedQueries`. -/
def getData (kb : KB) (endpoint : Endpoint) (query : String) : GDOut :=
  if kb.failedQueries.contains query then ⟨none, kb, []⟩
  else
    match simData endpoint query with
    | some r =>
      if 0 < r.length then ⟨some r, kb, [.lookup endpoint query]⟩
      else ⟨none, { kb with failedQueries := kb.failedQueries ++ [query] },
            [.lookup endpoint query]⟩
    | none => ⟨none, { kb with failedQueries := kb.failedQueries ++ [query] },
            [.lookup endpoint query]⟩

/-- One advisory-model interaction: either a returned message content or a
transport failure (the `catch` branch of `askModel`). -/
inductive AdvResp | ok (s : String) | failure
deriving DecidableEq, Repr

/-- `askModel`: trims the model output, and yields the fixed fallback token
`'ECHO'` on an empty message or on a transport error. -/
def askModel : AdvResp → String
  | .failure => "ECHO"
  | .ok s => if jsTrim s == "" then "ECHO" else jsTrim s

structure TLOut where
  ok : Bool
  kb : KB
  evs : List Event
deriving Repr, DecidableEq

/-- `testLocation(location)`: dedup on the upper-cased name, then the local
comparison with `CORRECT_ANSWER` (the simulated variant validates locally). -/
def testLocation (kb : KB) (location : String) : TLOut :=
  if kb.testedLocations.contains (up location) then ⟨false, kb, [.validate location false]⟩
  else
    ⟨up location == CORRECT_ANSWER,
     { kb with testedLocations := kb.testedLocations ++ [up location] },
     [.validate location (up location == CORRECT_ANSWER)]⟩

/-- `shouldTestLocation(place)`: not yet tested (under uppercasing) and not a
raw member of `INITIAL_CITIES`. -/
def shouldTestLocation (kb : KB) (place : String) : Bool :=
  !(kb.testedLocations.contains (up place)) && !(INITIAL_CITIES.contains place)

/-- Remove the last occurrence, as `splice(lastIndexOf(x), 1)` does. -/
def eraseLast (l : List String) (a : String) : List String :=
  (l.reverse.erase a).reverse

/-- The `prioritizedPeople` block: copy the list and move the advisor's pick
to the front when it is already a member. -/
def prioritize (people : List String) (ai : String) : List String :=
  if people.contains ai then ai :: eraseLast people ai else people

structure PPOut where
  kb : KB
  queue : List QueueNode
  log : List Event
deriving Repr, DecidableEq

/-- The `for (const person of prioritizedPeople)` push loop of the city
branch of `agentLoop`. -/
def pushPersons (kb : KB) (queue : List QueueNode) (log : List Event) :
    List String → PPOut
  | [] => ⟨kb, queue, log⟩
  | p :: rest =>
    if kb.visitedPeople.contains p then pushPersons kb queue log rest
    else
      pushPersons { kb with visitedPeople := kb.visitedPeople ++ [p] }
        (queue ++ [⟨.person, p⟩]) (log ++ [.enqueue .person p]) rest

structure TPOut where
  found : Option String
  kb : KB
  queue : List QueueNode
  log : List Event
deriving Repr, DecidableEq

/-- The body under the `shouldTestLocation` guard: test one place, and on
failure enqueue it as a city when not yet visited. -/
def testOnePlace (kb : KB) (queue : List QueueNode) (log : List Event)
    (place : String) : TPOut :=
  if (testLocation kb place).ok then
    ⟨some place, (testLocation kb place).kb, queue, log ++ (testLocation kb place).evs⟩
  else
    if (testLocation kb place).kb.visitedCities.contains place then
      ⟨none, (testLocation kb place).kb, queue, log ++ (testLocation kb place).evs⟩
    else
      ⟨none,
       { (testLocation kb place).kb with
          visitedCities := (testLocation kb place).kb.visitedCities ++ [place] },
       queue ++ [⟨.city, place⟩],
       log ++ (testLocation kb place).evs ++ [.enqueue .city place]⟩

/-- The `for (const place of places)` test loop of the person branch of
`agentLoop`; `found` is `some place` on the first successful validation. -/
def testPlaces (kb : KB) (queue : List QueueNode) (log : List Event)
    (aiLocation : String) : List String → TPOut
  | [] => ⟨none, kb, queue, log⟩
  | place :: rest =>
    if place != aiLocation && shouldTestLocation kb place then
      match testOnePlace kb queue log place with
      | ⟨some r, kb, queue, log⟩ => ⟨some r, kb, queue, log⟩
      | ⟨none, kb, queue, log⟩ => testPlaces kb queue log aiLocation rest
    else testPlaces kb queue log aiLocation rest

structure StepOut where
  found : Option String
  k : Nat
  kb : KB
  queue : List QueueNode
  log : List Event
deriving Repr, DecidableEq

/-- The city branch of the `while` body: fetch the people at the city,
record the edge, consult the advisor, and enqueue the prioritized
not-yet-visited people. -/
def processCity (sugg : Nat → String) (k : Nat) (kb : KB) (queue : List QueueNode)
    (log : List Event) (value : String) : StepOut :=
  match getData kb .places value with
  | ⟨some people, kb, evs⟩ =>
    match pushPersons { kb with cityPeople := setAssoc kb.cityPeople value people }
        queue (log ++ evs ++ [.advise]) (prioritize people (up (sugg k))) with
    | ⟨kb, queue, log⟩ => ⟨none, k + 1, kb, queue, log⟩
  | ⟨none, kb, evs⟩ => ⟨none, k, kb, queue, log ++ evs⟩

/-- The person branch after a successful fetch: first the advisor-suggested
location (when it is among the returned places and eligible), then the
returned places in order. -/
def personTests (k : Nat) (kb : KB) (queue : List QueueNode) (log : List Event)
    (places : List String) (aiLocation : String) : StepOut :=
  match (if places.contains aiLocation && shouldTestLocation kb aiLocation then
          testOnePlace kb queue log aiLocation
         else ⟨none, kb, queue, log⟩ : TPOut) with
  | ⟨some r, kb, queue, log⟩ => ⟨some r, k + 1, kb, queue, log⟩
  | ⟨none, kb, queue, log⟩ =>
    match testPlaces kb queue log aiLocation places with
    | ⟨r, kb, queue, log⟩ => ⟨r, k + 1, kb, queue, log⟩

/-- The person branch of the `while` body: fetch the places of the person,
record the edge, consult the advisor, then run the validation sweep. -/
def processPerson (sugg : Nat → String) (k : Nat) (kb : KB) (queue : List QueueNode)
    (log : List Event) (value : String) : StepOut :=
  match getData kb .people value with
  | ⟨some places, kb, evs⟩ =>
    personTests k { kb with peopleLocations := setAssoc kb.peopleLocations value places }
      queue (log ++ evs ++ [.advise]) places (up (sugg k))
  | ⟨none, kb, evs⟩ => ⟨none, k, kb, queue, log ++ evs⟩

/-- The body of one `while` iteration of `agentLoop`, processing `current`.
`sugg k` is the (already `askModel`-interpreted) advisory answer to the
`k`-th advisor call of the run. -/
def processNode (sugg : Nat → String) (k : Nat) (kb : KB) (queue : List QueueNode)
    (log : List Event) (current : QueueNode) : StepOut :=
  match current.type with
  | .city => processCity sugg k kb queue log current.value
  | .person => processPerson sugg k kb queue log current.value

/-- Outcome of a complete run: `found s` is an early `return` with a
validated location, `noData` is the `return "No data found"` after the
frontier drains, and `fuelOut` marks exhaustion of the step budget of the
embedding (never reached in the proofs below). -/
inductive RunResult | found (s : String) | noData | fuelOut
deriving DecidableEq, Repr

structure RunOut where
  result : RunResult
  kb : KB
  queue : List QueueNode
  log : List Event
deriving Repr, DecidableEq

/-- The `while (queueIndex < queue.length)` loop of `agentLoop`. -/
def loop (sugg : Nat → String) :
    Nat → Nat → KB → List QueueNode → Nat → List Event → RunOut
  | 0, _, kb, queue, _, log => ⟨.fuelOut, kb, queue, log⟩
  | fuel + 1, k, kb, queue, i, log =>
    match queue[i]? with
    | none => ⟨.noData, kb, queue, log⟩
    | some current =>
      match processNode sugg k kb queue log current with
      | ⟨some r, _, kb, queue, log⟩ => ⟨.found r, kb, queue, log⟩
      | ⟨none, k, kb, queue, log⟩ => loop sugg fuel k kb queue (i + 1) log

/-- The unconditional seeding loop `for (const city of INITIAL_CITIES)`. -/
def seedAll (kb : KB) (queue : List QueueNode) (log : List Event) :
    List String → PPOut
  | [] => ⟨kb, queue, log⟩
  | c :: rest =>
    seedAll { kb with visitedCities := kb.visitedCities ++ [c] }
      (queue ++ [⟨.city, c⟩]) (log ++ [.enqueue .city c]) rest

/-- The seeding phase of `agentLoop`: one advisor call, then either the
advisor-first seeding (when the upper-cased suggestion is a member of
`INITIAL_CITIES`) or plain seeding of both initial cities. -/
def seedQueue (sugg : Nat → String) : PPOut :=
  if INITIAL_CITIES.contains (up (sugg 0)) then
    seedAll { KB.init with visitedCities := [up (sugg 0)] }
      [⟨.city, up (sugg 0)⟩] [.advise, .enqueue .city (up (sugg 0))]
      (INITIAL_CITIES.filter (fun c => c != up (sugg 0)))
  else
    seedAll KB.init [] [.advise] INITIAL_CITIES

/-- Specification predicate for claim C4: every (type, raw name) identity is
enqueued at most once so far, and any already-enqueued name is recorded in
the corresponding visited set. -/
def enqueueOnce (kb : KB) (log : List Event) : Prop :=
  ∀ v, ((log.count (Event.enqueue .city v) ≤ 1) ∧
        (1 ≤ log.count (Event.enqueue .city v) → kb.visitedCities.contains v = true)) ∧
       ((log.count (Event.enqueue .person v) ≤ 1) ∧
        (1 ≤ log.count (Event.enqueue .person v) → kb.visitedPeople.contains v = true))

/-- `agentLoop` over pre-interpreted suggestions (the `getText` context load
only supplies prompt text and is omitted). -/
def runSearch (sugg : Nat → String) (fuel : Nat) : RunOut :=
  match seedQueue sugg with
  | ⟨kb, queue, log⟩ => loop sugg fuel 1 kb queue 0 log

/-- `agentLoop` as a function of the raw advisory-model behaviour: the `k`-th
`askModel` call observes `adv k`. -/
def agentLoop (adv : Nat → AdvResp) (fuel : Nat) : RunOut :=
  runSearch (fun k => askModel (adv k)) fuel

end Bfs

/-! ### The live-API variant, `src/unnamed/part_000`

External collaborators are oracle streams: `fenv n` is the response to the
`n`-th data-source POST of the run, `venv n` the response to the `n`-th
validation POST; `nF`/`nV` count the requests issued so far. -/

namespace Live

/-- `INITIAL_NODES = new Set(['NodeA', 'NodeB'])`. -/
def INITIAL_NODES : List String := ["NodeA", "NodeB"]

/-- `ERROR_KEYWORDS`. -/
def ERROR_KEYWORDS : List String := ["restricted", "no data", "anomaly", "error", "forbidden"]

inductive EndpointT | entities | locations
deriving DecidableEq, Repr

inductive NodeT | location | entity
deriving DecidableEq, Repr

structure QNode where
  type : NodeT
  value : String
deriving DecidableEq, Repr

/-- One `axios.post` outcome for a data query: a response whose body may
carry a `message` string, or a transport error (the `catch` path). -/
inductive FetchResp | ok (message : Option String) | err
deriving DecidableEq, Repr

/-- One validation-endpoint outcome: a response with optional `code` and
`message` fields, or a transport error. -/
inductive ValResp | ok (code : Option Int) (message : Option String) | err
deriving DecidableEq, Repr

/-- Observable interactions of a run: `fetchReq` = a data-source POST
actually issued (cache miss in `getData`), `valReq` = a validation POST
actually issued, `valCall` = an invocation of `testTarget` with its result,
`push` = a `queue.push`. -/
inductive Ev
  | fetchReq (e : EndpointT) (q : String)
  | valReq (c : String)
  | valCall (c : String) (ok : Bool)
  | push (t : NodeT) (v : String)
deriving DecidableEq, Repr

/-- The `knowledgeBase` of the live variant. -/
structure KB where
  entityLocations : List (String × List String)
  locationEntities : List (String × List String)
  visitedLocations : List String
  visitedEntities : List String
  testedTargets : List String
  failedQueries : List String
deriving DecidableEq, Repr

def KB.init : KB := ⟨[], [], [], [], [], []⟩

/-- `isErrorResponse(message)`: `Array.from(ERROR_KEYWORDS).some(keyword =>
message.includes(keyword))` — a case-sensitive substring check. -/
def isErrorResponse (message : String) : Bool :=
  ERROR_KEYWORDS.any (fun keyword => strIncludes message keyword)

structure GDOut where
  res : Option (List String)
  kb : KB
  nF : Nat
  evs : List Ev
deriving Repr, DecidableEq

/-- `getData(endpoint, query)` of `part_000`: cache check, POST, error
classification by keyword, then whitespace tokenization; an empty token
list yields `null` without touching `failedQueries`. -/
def getData (fenv : Nat → FetchResp) (nF : Nat) (kb : KB)
    (e : EndpointT) (q : String) : GDOut :=
  if kb.failedQueries.contains q then ⟨none, kb, nF, []⟩
  else
    match fenv nF with
    | .err =>
      ⟨none, { kb with failedQueries := kb.failedQueries ++ [q] }, nF + 1, [.fetchReq e q]⟩
    | .ok none => ⟨none, kb, nF + 1, [.fetchReq e q]⟩
    | .ok (some m) =>
      if isErrorResponse m then
        ⟨none, { kb with failedQueries := kb.failedQueries ++ [q] }, nF + 1, [.fetchReq e q]⟩
      else
        if 0 < (jsTokens m).length then ⟨some (jsTokens m), kb, nF + 1, [.fetchReq e q]⟩
        else ⟨none, kb, nF + 1, [.fetchReq e q]⟩

/-- The success test on a validation response: `code === 0` and the message
contains the fixed marker `'SUCCESS:'`. -/
def isSuccessResp : ValResp → Bool
  | .ok code msg =>
    code == some 0 &&
      (match msg with
       | some m => strIncludes m "SUCCESS:"
       | none => false)
  | .err => false

structure TTOut where
  ok : Bool
  kb : KB
  nV : Nat
  evs : List Ev
deriving Repr, DecidableEq

/-- `testTarget(target)` of `part_000`: dedup on the raw name (marked tested
before the POST is issued), then the external validation request. -/
def testTarget (venv : Nat → ValResp) (nV : Nat) (kb : KB) (target : String) : TTOut :=
  if kb.testedTargets.contains target then ⟨false, kb, nV, [.valCall target false]⟩
  else
    ⟨isSuccessResp (venv nV),
     { kb with testedTargets := kb.testedTargets ++ [target] },
     nV + 1,
     [.valReq target, .valCall target (isSuccessResp (venv nV))]⟩

/-- `shouldTestTarget(target)`: not yet tested and not a raw member of
`INITIAL_NODES`. -/
def shouldTestTarget (kb : KB) (target : String) : Bool :=
  !(kb.testedTargets.contains target) && !(INITIAL_NODES.contains target)

structure PEOut where
  kb : KB
  queue : List QNode
  log : List Ev
deriving Repr, DecidableEq

/-- The `for (const entity of entities)` push loop of the location branch of
`searchAgent`. -/
def pushEntities (kb : KB) (queue : List QNode) (log : List Ev) :
    List String → PEOut
  | [] => ⟨kb, queue, log⟩
  | x :: rest =>
    if kb.visitedEntities.contains x then pushEntities kb queue log rest
    else
      pushEntities { kb with visitedEntities := kb.visitedEntities ++ [x] }
        (queue ++ [⟨.entity, x⟩]) (log ++ [.push .entity x]) rest

structure TLoopOut where
  found : Option String
  kb : KB
  queue : List QNode
  nV : Nat
  log : List Ev
deriving Repr, DecidableEq

/-- The body under the `shouldTestTarget` guard of the entity branch: test
one location, and on failure enqueue it when not yet visited. -/
def testOneLoc (venv : Nat → ValResp) (nV : Nat) (kb : KB) (queue : List QNode)
    (log : List Ev) (location : String) : TLoopOut :=
  if (testTarget venv nV kb location).ok then
    ⟨some location, (testTarget venv nV kb location).kb, queue,
     (testTarget venv nV kb location).nV, log ++ (testTarget venv nV kb location).evs⟩
  else
    if (testTarget venv nV kb location).kb.visitedLocations.contains location then
      ⟨none, (testTarget venv nV kb location).kb, queue,
       (testTarget venv nV kb location).nV, log ++ (testTarget venv nV kb location).evs⟩
    else
      ⟨none,
       { (testTarget venv nV kb location).kb with
          visitedLocations := (testTarget venv nV kb location).kb.visitedLocations ++ [location] },
       queue ++ [⟨.location, location⟩],
       (testTarget venv nV kb location).nV,
       log ++ (testTarget venv nV kb location).evs ++ [.push .location location]⟩

/-- The `for (const location of locations)` loop of the entity branch of
`searchAgent`. -/
def testLocs (venv : Nat → ValResp) (nV : Nat) (kb : KB) (queue : List QNode)
    (log : List Ev) : List String → TLoopOut
  | [] => ⟨none, kb, queue, nV, log⟩
  | loc :: rest =>
    if shouldTestTarget kb loc then
      match testOneLoc venv nV kb queue log loc with
      | ⟨some r, kb, queue, nV, log⟩ => ⟨some r, kb, queue, nV, log⟩
      | ⟨none, kb, queue, nV, log⟩ => testLocs venv nV kb queue log rest
    else testLocs venv nV kb queue log rest

structure LStepOut where
  found : Option String
  kb : KB
  queue : List QNode
  nF : Nat
  nV : Nat
  log : List Ev
deriving Repr, DecidableEq

/-- The location branch of the `while` body of `searchAgent`. -/
def processLocation (fenv : Nat → FetchResp) (nF nV : Nat) (kb : KB)
    (queue : List QNode) (log : List Ev) (value : String) : LStepOut :=
  match getData fenv nF kb .locations value with
  | ⟨some entities, kb, nF, evs⟩ =>
    match pushEntities { kb with locationEntities := setAssoc kb.locationEntities value entities }
        queue (log ++ evs) entities with
    | ⟨kb, queue, log⟩ => ⟨none, kb, queue, nF, nV, log⟩
  | ⟨none, kb, nF, evs⟩ => ⟨none, kb, queue, nF, nV, log ++ evs⟩

/-- The entity branch of the `while` body of `searchAgent`. -/
def processEntity (fenv : Nat → FetchResp) (venv : Nat → ValResp) (nF nV : Nat)
    (kb : KB) (queue : List QNode) (log : List Ev) (value : String) : LStepOut :=
  match getData fenv nF kb .entities value with
  | ⟨some locations, kb, nF, evs⟩ =>
    match testLocs venv nV { kb with entityLocations := setAssoc kb.entityLocations value locations }
        queue (log ++ evs) locations with
    | ⟨r, kb, queue, nV, log⟩ => ⟨r, kb, queue, nF, nV, log⟩
  | ⟨none, kb, nF, evs⟩ => ⟨none, kb, queue, nF, nV, log ++ evs⟩

/-- One `while` iteration of `searchAgent`, processing `current`. -/
def processQNode (fenv : Nat → FetchResp) (venv : Nat → ValResp) (nF nV : Nat)
    (kb : KB) (queue : List QNode) (log : List Ev) (current : QNode) : LStepOut :=
  match current.type with
  | .location => processLocation fenv nF nV kb queue log current.value
  | .entity => processEntity fenv venv nF nV kb queue log current.value

/-- Outcome of a `searchAgent` run (`noTarget` is `"No target found"`). -/
inductive RunRes | found (s : String) | noTarget | fuelOut
deriving DecidableEq, Repr

structure LRunOut where
  result : RunRes
  kb : KB
  queue : List QNode
  log : List Ev
deriving Repr, DecidableEq

/-- The `while (queueIndex < queue.length)` loop of `searchAgent`. -/
def searchLoop (fenv : Nat → FetchResp) (venv : Nat → ValResp) :
    Nat → Nat → Nat → KB → List QNode → Nat → List Ev → LRunOut
  | 0, _, _, kb, queue, _, log => ⟨.fuelOut, kb, queue, log⟩
  | fuel + 1, nF, nV, kb, queue, i, log =>
    match queue[i]? with
    | none => ⟨.noTarget, kb, queue, log⟩
    | some current =>
      match processQNode fenv venv nF nV kb queue log current with
      | ⟨some r, kb, queue, _, _, log⟩ => ⟨.found r, kb, queue, log⟩
      | ⟨none, kb, queue, nF, nV, log⟩ => searchLoop fenv venv fuel nF nV kb queue (i + 1) log

/-- The seeding loop `for (const location of INITIAL_NODES)`. -/
def seedAllLive (kb : KB) (queue : List QNode) (log : List Ev) :
    List String → PEOut
  | [] => ⟨kb, queue, log⟩
  | c :: rest =>
    seedAllLive { kb with visitedLocations := kb.visitedLocations ++ [c] }
      (queue ++ [⟨.location, c⟩]) (log ++ [.push .location c]) rest

/-- `searchAgent()` of `part_000`. -/
def searchAgent (fenv : Nat → FetchResp) (venv : Nat → ValResp) (fuel : Nat) : LRunOut :=
  match seedAllLive KB.init [] [] INITIAL_NODES with
  | ⟨kb, queue, log⟩ => searchLoop fenv venv fuel 0 0 kb queue 0 log

/-- Specification predicate for claim C4 in the live variant: every
(type, raw name) identity has been pushed at most once so far, and any
already-pushed name is recorded in the corresponding visited set. -/
def pushOnce (kb : KB) (log : List Ev) : Prop :=
  ∀ v, ((log.count (Ev.push .location v) ≤ 1) ∧
        (1 ≤ log.count (Ev.push .location v) → kb.visitedLocations.contains v = true)) ∧
       ((log.count (Ev.push .entity v) ≤ 1) ∧
        (1 ≤ log.count (Ev.push .entity v) → kb.visitedEntities.contains v = true))

end Live

/-! ### Basic facts about the string primitives -/

/-- `upChar` never produces an ASCII lowercase letter. -/
theorem upChar_toNat_not_lower (c : Char) :
    ¬ (97 ≤ (upChar c).toNat ∧ (upChar c).toNat ≤ 122) := by
  unfold upChar
  split
  · rename_i h
    have : (Char.ofNat (c.toNat - 32)).toNat = c.toNat - 32 := by
      unfold Char.ofNat
      rw [dif_pos]
      · rfl
      · left; omega
    omega
  · omega

/-- An upper-cased string differs from any string with an ASCII lowercase
letter at some position. -/
theorem up_ne_of_lower_at (s t : String) (i : Nat) (c : Char)
    (hc : t.data[i]? = some c) (hlow : 97 ≤ c.toNat ∧ c.toNat ≤ 122) :
    up s ≠ t := by
  intro h
  have hd : (up s).data = t.data := by rw [h]
  have hd2 : s.data.map upChar = t.data := hd
  rw [← hd2] at hc
  rw [List.getElem?_map] at hc
  cases hm : s.data[i]? with
  | none => rw [hm] at hc; simp at hc
  | some a =>
    rw [hm] at hc
    simp at hc
    exact upChar_toNat_not_lower a (hc ▸ hlow)

namespace Bfs

/-- No upper-cased advisor suggestion is a raw member of `INITIAL_CITIES`:
the stored initial names `'Gdansk'`/`'Poznan'` keep lowercase letters.  This
makes the advisor-first seeding branch of `agentLoop` unreachable, and makes
`shouldTestLocation`'s starting-node exclusion vacuous for upper-cased data. -/
theorem not_initial_up (s : String) : INITIAL_CITIES.contains (up s) = false := by
  have h1 : up s ≠ "Gdansk" := up_ne_of_lower_at s "Gdansk" 1 'd' (by decide) (by decide)
  have h2 : up s ≠ "Poznan" := up_ne_of_lower_at s "Poznan" 1 'o' (by decide) (by decide)
  simp [INITIAL_CITIES, List.contains]
  exact ⟨fun h => h1 h, fun h => h2 h⟩

/-- `List.contains` through `Decidable` membership (String `BEq` is equality). -/
theorem contains_eq_decide (l : List String) (a : String) :
    l.contains a = decide (a ∈ l) := by
  by_cases h : a ∈ l <;> simp [h, List.contains, List.elem_iff]

/-- A successful `lookupTable` result is the second component of a table row. -/
theorem mem_of_lookupTable (t : List (String × List String)) (k : String) (l : List String)
    (h : lookupTable t k = some l) : ∃ p, p ∈ t ∧ p.2 = l := by
  unfold lookupTable at h
  cases hf : t.find? (fun p => p.1 == k) with
  | none => rw [hf] at h; simp at h
  | some p =>
    rw [hf] at h
    simp at h
    exact ⟨p, List.mem_of_find?_eq_some hf, h⟩

/-- Every name stored in `SIMULATED_DATA.people` is upper-case fixed. -/
theorem upfix_people (k : String) (l : List String)
    (h : lookupTable SIMULATED_people k = some l) : ∀ x ∈ l, up x = x := by
  obtain ⟨p, hp, he⟩ := mem_of_lookupTable _ _ _ h
  subst he
  fin_cases hp <;> decide

/-- Every name stored in `SIMULATED_DATA.places` is upper-case fixed. -/
theorem upfix_places (k : String) (l : List String)
    (h : lookupTable SIMULATED_places k = some l) : ∀ x ∈ l, up x = x := by
  obtain ⟨p, hp, he⟩ := mem_of_lookupTable _ _ _ h
  subst he
  fin_cases hp <;> decide

end Bfs

end BfsSearch
namespace BfsSearch
namespace Bfs

theorem simData_upfix (e : Endpoint) (q : String) (l : List String)
    (h : simData e q = some l) : ∀ x ∈ l, up x = x := by
  cases e
  · exact upfix_people _ _ h
  · exact upfix_places _ _ h

theorem getData_some_upfix (kb : KB) (e : Endpoint) (q : String) (l : List String)
    (h : (getData kb e q).res = some l) : ∀ x ∈ l, up x = x := by
  unfold getData at h
  split at h
  · exact absurd h (by simp)
  · split at h
    · rename_i r heq
      split at h
      · have hrl : r = l := Option.some.inj h
        subst hrl
        exact simData_upfix _ _ _ heq
      · exact absurd h (by simp)
    · exact absurd h (by simp)

theorem getData_fields (kb : KB) (e : Endpoint) (q : String) :
    (getData kb e q).kb.testedLocations = kb.testedLocations ∧
    (getData kb e q).kb.visitedCities = kb.visitedCities ∧
    (getData kb e q).kb.visitedPeople = kb.visitedPeople := by
  unfold getData
  split
  · exact ⟨rfl, rfl, rfl⟩
  · split
    · split
      · exact ⟨rfl, rfl, rfl⟩
      · exact ⟨rfl, rfl, rfl⟩
    · exact ⟨rfl, rfl, rfl⟩

theorem getData_failed_contains (kb : KB) (e : Endpoint) (q x : String)
    (h : (getData kb e q).kb.failedQueries.contains x = true) :
    kb.failedQueries.contains x = true ∨ x = q := by
  have step : (({ kb with failedQueries := kb.failedQueries ++ [q] } : KB).failedQueries.contains x = true) →
      kb.failedQueries.contains x = true ∨ x = q := by
    intro hc
    simp only [contains_eq_decide] at hc ⊢
    simp at hc
    rcases hc with h1 | h1
    · left; simp [h1]
    · right; exact h1
  unfold getData at h
  split at h
  · exact .inl h
  · split at h
    · split at h
      · exact .inl h
      · exact step h
    · exact step h

theorem testLocation_ok_up (kb : KB) (loc : String)
    (h : (testLocation kb loc).ok = true) : up loc = CORRECT_ANSWER := by
  unfold testLocation at h
  split at h
  · exact absurd h (by simp)
  · simpa using h

theorem testLocation_fields (kb : KB) (loc : String) :
    (testLocation kb loc).kb.failedQueries = kb.failedQueries ∧
    (testLocation kb loc).kb.visitedCities = kb.visitedCities ∧
    (testLocation kb loc).kb.visitedPeople = kb.visitedPeople := by
  unfold testLocation
  split
  · exact ⟨rfl, rfl, rfl⟩
  · exact ⟨rfl, rfl, rfl⟩

theorem testLocation_tested_preserved (kb : KB) (loc : String)
    (hok : (testLocation kb loc).ok = false)
    (h : kb.testedLocations.contains CORRECT_ANSWER = false) :
    (testLocation kb loc).kb.testedLocations.contains CORRECT_ANSWER = false := by
  unfold testLocation at hok ⊢
  by_cases hmem : kb.testedLocations.contains (up loc) = true
  · rw [if_pos hmem]
    exact h
  · rw [if_neg hmem] at hok ⊢
    have hne : up loc ≠ CORRECT_ANSWER := by
      intro he
      have h2 : (up loc == CORRECT_ANSWER) = false := by simpa using hok
      rw [he] at h2
      simp at h2
    simp only [contains_eq_decide] at h ⊢
    simp at h ⊢
    exact ⟨h, fun he => hne he.symm⟩

end Bfs
end BfsSearch
namespace BfsSearch
namespace Bfs

theorem testOnePlace_found (kb : KB) (queue : List QueueNode) (log : List Event)
    (place r : String)
    (h : (testOnePlace kb queue log place).found = some r) :
    r = place ∧ up place = CORRECT_ANSWER := by
  unfold testOnePlace at h
  by_cases hok : (testLocation kb place).ok = true
  · rw [if_pos hok] at h
    exact ⟨(Option.some.inj h).symm, testLocation_ok_up _ _ hok⟩
  · rw [if_neg hok] at h
    by_cases hv : (testLocation kb place).kb.visitedCities.contains place = true
    · rw [if_pos hv] at h; exact absurd h (by simp)
    · rw [if_neg hv] at h; exact absurd h (by simp)

theorem testOnePlace_none_facts (kb : KB) (queue : List QueueNode) (log : List Event)
    (place : String) (h : (testOnePlace kb queue log place).found = none) :
    (testOnePlace kb queue log place).kb.failedQueries = kb.failedQueries ∧
    (kb.testedLocations.contains CORRECT_ANSWER = false →
      (testOnePlace kb queue log place).kb.testedLocations.contains CORRECT_ANSWER = false) ∧
    ∃ δ, (testOnePlace kb queue log place).queue = queue ++ δ := by
  unfold testOnePlace at h ⊢
  by_cases hok : (testLocation kb place).ok = true
  · rw [if_pos hok] at h; exact absurd h (by simp)
  · have hokf : (testLocation kb place).ok = false := by simp at hok; exact hok
    rw [if_neg hok] at h ⊢
    by_cases hv : (testLocation kb place).kb.visitedCities.contains place = true
    · rw [if_pos hv]
      exact ⟨(testLocation_fields kb place).1,
        fun ht => testLocation_tested_preserved kb place hokf ht, ⟨[], by simp⟩⟩
    · rw [if_neg hv]
      exact ⟨(testLocation_fields kb place).1,
        fun ht => testLocation_tested_preserved kb place hokf ht, ⟨[⟨.city, place⟩], rfl⟩⟩

theorem testOnePlace_finds (kb : KB) (queue : List QueueNode) (log : List Event)
    (ht : kb.testedLocations.contains CORRECT_ANSWER = false) :
    (testOnePlace kb queue log "OLSZTYN").found = some "OLSZTYN" := by
  have hup : up "OLSZTYN" = CORRECT_ANSWER := by decide
  have hok : (testLocation kb "OLSZTYN").ok = true := by
    unfold testLocation
    rw [hup]
    rw [if_neg (by rw [ht]; simp)]
    simp [CORRECT_ANSWER]
  unfold testOnePlace
  rw [if_pos hok]

end Bfs
end BfsSearch
namespace BfsSearch
namespace Bfs

theorem testPlaces_found (ai r : String) (places : List String) :
    ∀ (kb : KB) (queue : List QueueNode) (log : List Event),
    (testPlaces kb queue log ai places).found = some r →
    r ∈ places ∧ up r = CORRECT_ANSWER := by
  induction places with
  | nil => intro kb queue log h; exact absurd h (by simp [testPlaces])
  | cons p rest ih =>
    intro kb queue log h
    unfold testPlaces at h
    by_cases hg : (p != ai && shouldTestLocation kb p) = true
    · rw [if_pos hg] at h
      cases hto : testOnePlace kb queue log p with
      | mk found kb2 queue2 log2 =>
        rw [hto] at h
        cases found with
        | some r2 =>
          simp only at h
          have h2 : r2 = r := Option.some.inj h
          subst h2
          have := testOnePlace_found kb queue log p r2 (by rw [hto])
          exact ⟨this.1 ▸ List.mem_cons_self p rest, this.1 ▸ this.2⟩
        | none =>
          simp only at h
          have := ih kb2 queue2 log2 h
          exact ⟨List.mem_cons_of_mem p this.1, this.2⟩
    · rw [if_neg hg] at h
      have := ih kb queue log h
      exact ⟨List.mem_cons_of_mem p this.1, this.2⟩

theorem testPlaces_none_facts (ai : String) (places : List String) :
    ∀ (kb : KB) (queue : List QueueNode) (log : List Event),
    (testPlaces kb queue log ai places).found = none →
    (testPlaces kb queue log ai places).kb.failedQueries = kb.failedQueries ∧
    (kb.testedLocations.contains CORRECT_ANSWER = false →
      (testPlaces kb queue log ai places).kb.testedLocations.contains CORRECT_ANSWER = false) ∧
    ∃ δ, (testPlaces kb queue log ai places).queue = queue ++ δ := by
  induction places with
  | nil =>
    intro kb queue log _
    exact ⟨rfl, fun ht => ht, ⟨[], by simp [testPlaces]⟩⟩
  | cons p rest ih =>
    intro kb queue log h
    unfold testPlaces at h ⊢
    by_cases hg : (p != ai && shouldTestLocation kb p) = true
    · rw [if_pos hg] at h ⊢
      cases hto : testOnePlace kb queue log p with
      | mk found kb2 queue2 log2 =>
        rw [hto] at h
        cases found with
        | some r2 => simp at h
        | none =>
          simp only at h ⊢
          have hone := testOnePlace_none_facts kb queue log p (by rw [hto])
          rw [hto] at hone
          simp only at hone
          obtain ⟨hf1, ht1, δ1, hq1⟩ := hone
          obtain ⟨hf2, ht2, δ2, hq2⟩ := ih kb2 queue2 log2 h
          exact ⟨hf2.trans hf1, fun ht => ht2 (ht1 ht), ⟨δ1 ++ δ2, by rw [hq2, hq1, List.append_assoc]⟩⟩
    · rw [if_neg hg] at h ⊢
      exact ih kb queue log h

end Bfs
end BfsSearch
namespace BfsSearch
namespace Bfs

theorem testPlaces_finds (ai : String) (places : List String) :
    ∀ (kb : KB) (queue : List QueueNode) (log : List Event),
    (∀ p ∈ places, up p = p) → "OLSZTYN" ∈ places → ai ≠ "OLSZTYN" →
    kb.testedLocations.contains CORRECT_ANSWER = false →
    (testPlaces kb queue log ai places).found = some "OLSZTYN" := by
  induction places with
  | nil => intro kb queue log _ hmem _ _; exact absurd hmem (by simp)
  | cons p rest ih =>
    intro kb queue log hupfix hmem hai ht
    unfold testPlaces
    by_cases hp : p = "OLSZTYN"
    · subst hp
      have hg : (("OLSZTYN" : String) != ai && shouldTestLocation kb "OLSZTYN") = true := by
        have h1 : (("OLSZTYN" : String) != ai) = true := by
          simp
          exact fun he => hai he.symm
        have h2 : shouldTestLocation kb "OLSZTYN" = true := by
          unfold shouldTestLocation
          have hup : up "OLSZTYN" = CORRECT_ANSWER := by decide
          rw [hup, ht]
          decide
        rw [h1, h2]
        rfl
      rw [if_pos hg]
      have hfind := testOnePlace_finds kb queue log ht
      cases hto : testOnePlace kb queue log "OLSZTYN" with
      | mk found kb2 queue2 log2 =>
        rw [hto] at hfind
        simp only at hfind
        subst hfind
        rfl
    · have hmem2 : "OLSZTYN" ∈ rest := by
        cases hmem with
        | head => exact absurd rfl hp
        | tail _ hm => exact hm
      have hupfix2 : ∀ x ∈ rest, up x = x := fun x hx => hupfix x (List.mem_cons_of_mem p hx)
      by_cases hg : (p != ai && shouldTestLocation kb p) = true
      · rw [if_pos hg]
        cases hto : testOnePlace kb queue log p with
        | mk found kb2 queue2 log2 =>
          cases found with
          | some r2 =>
            have hf := testOnePlace_found kb queue log p r2 (by rw [hto])
            have : p = "OLSZTYN" := by
              have hupp : up p = p := hupfix p (List.mem_cons_self p rest)
              rw [← hupp]
              exact hf.2
            exact absurd this hp
          | none =>
            simp only
            have hone := testOnePlace_none_facts kb queue log p (by rw [hto])
            rw [hto] at hone
            simp only at hone
            exact ih kb2 queue2 log2 hupfix2 hmem2 hai (hone.2.1 ht)
      · rw [if_neg hg]
        exact ih kb queue log hupfix2 hmem2 hai ht

theorem pushPersons_facts (people : List String) :
    ∀ (kb : KB) (queue : List QueueNode) (log : List Event),
    (pushPersons kb queue log people).kb.testedLocations = kb.testedLocations ∧
    (pushPersons kb queue log people).kb.failedQueries = kb.failedQueries ∧
    ∃ δ, (pushPersons kb queue log people).queue = queue ++ δ := by
  induction people with
  | nil => intro kb queue log; exact ⟨rfl, rfl, ⟨[], by simp [pushPersons]⟩⟩
  | cons p rest ih =>
    intro kb queue log
    unfold pushPersons
    by_cases hv : kb.visitedPeople.contains p = true
    · rw [if_pos hv]
      exact ih kb queue log
    · rw [if_neg hv]
      obtain ⟨h1, h2, δ, hq⟩ := ih { kb with visitedPeople := kb.visitedPeople ++ [p] }
        (queue ++ [⟨.person, p⟩]) (log ++ [.enqueue .person p])
      exact ⟨h1, h2, ⟨⟨.person, p⟩ :: δ, by rw [hq, List.append_assoc]; rfl⟩⟩

end Bfs
end BfsSearch
namespace BfsSearch
namespace Bfs

theorem processCity_facts (sugg : Nat → String) (k : Nat) (kb : KB)
    (queue : List QueueNode) (log : List Event) (value : String) :
    (processCity sugg k kb queue log value).found = none ∧
    (processCity sugg k kb queue log value).kb.testedLocations = kb.testedLocations ∧
    (kb.failedQueries.contains "ECHO" = false → value ≠ "ECHO" →
      (processCity sugg k kb queue log value).kb.failedQueries.contains "ECHO" = false) ∧
    ∃ δ, (processCity sugg k kb queue log value).queue = queue ++ δ := by
  unfold processCity
  cases hg : getData kb .places value with
  | mk res kb2 evs =>
    have hfields := getData_fields kb .places value
    have hfailed := fun hc => getData_failed_contains kb .places value "ECHO" hc
    rw [hg] at hfields hfailed
    simp only at hfields hfailed
    have hEf : kb.failedQueries.contains "ECHO" = false → value ≠ "ECHO" →
        kb2.failedQueries.contains "ECHO" = false := by
      intro hfe hne
      cases hbool : kb2.failedQueries.contains "ECHO" with
      | false => rfl
      | true =>
        rcases hfailed hbool with h1 | h1
        · rw [hfe] at h1; exact absurd h1 (by simp)
        · exact absurd h1.symm hne
    cases res with
    | some people =>
      obtain ⟨ht3, hf3, δ, hq3⟩ := pushPersons_facts (prioritize people (up (sugg k)))
        { kb2 with cityPeople := setAssoc kb2.cityPeople value people }
        queue (log ++ evs ++ [.advise])
      exact ⟨rfl, ht3.trans hfields.1,
        fun hfe hne => by rw [hf3]; exact hEf hfe hne, ⟨δ, hq3⟩⟩
    | none =>
      exact ⟨rfl, hfields.1, fun hfe hne => hEf hfe hne, ⟨[], by simp⟩⟩

end Bfs
end BfsSearch
namespace BfsSearch
namespace Bfs

theorem personTests_found (k : Nat) (kb : KB) (queue : List QueueNode)
    (log : List Event) (places : List String) (ai r : String)
    (h : (personTests k kb queue log places ai).found = some r) :
    r ∈ places ∧ up r = CORRECT_ANSWER := by
  unfold personTests at h
  by_cases hg : (places.contains ai && shouldTestLocation kb ai) = true
  · rw [if_pos hg] at h
    cases hto : testOnePlace kb queue log ai with
    | mk found kb2 queue2 log2 =>
      rw [hto] at h
      cases found with
      | some r2 =>
        simp only at h
        have hr : r2 = r := Option.some.inj h
        obtain ⟨hr2, hup⟩ := testOnePlace_found kb queue log ai r2 (by rw [hto])
        have hc : places.contains ai = true := by
          cases hca : places.contains ai
          · rw [hca] at hg; simp at hg
          · rfl
        rw [contains_eq_decide] at hc
        have hai_mem : ai ∈ places := by simpa using hc
        subst hr
        rw [hr2]
        exact ⟨hai_mem, hup⟩
      | none =>
        simp only at h
        exact testPlaces_found ai r places kb2 queue2 log2 h
  · rw [if_neg hg] at h
    simp only at h
    exact testPlaces_found ai r places kb queue log h

theorem personTests_none_facts (k : Nat) (kb : KB) (queue : List QueueNode)
    (log : List Event) (places : List String) (ai : String)
    (h : (personTests k kb queue log places ai).found = none) :
    (personTests k kb queue log places ai).kb.failedQueries = kb.failedQueries ∧
    (kb.testedLocations.contains CORRECT_ANSWER = false →
      (personTests k kb queue log places ai).kb.testedLocations.contains CORRECT_ANSWER = false) ∧
    ∃ δ, (personTests k kb queue log places ai).queue = queue ++ δ := by
  unfold personTests at h ⊢
  by_cases hg : (places.contains ai && shouldTestLocation kb ai) = true
  · rw [if_pos hg] at h ⊢
    cases hto : testOnePlace kb queue log ai with
    | mk found kb2 queue2 log2 =>
      rw [hto] at h
      cases found with
      | some r2 => simp at h
      | none =>
        simp only at h ⊢
        have hone := testOnePlace_none_facts kb queue log ai (by rw [hto])
        rw [hto] at hone
        simp only at hone
        obtain ⟨hf1, ht1, δ1, hq1⟩ := hone
        obtain ⟨hf2, ht2, δ2, hq2⟩ := testPlaces_none_facts ai places kb2 queue2 log2 h
        exact ⟨hf2.trans hf1, fun ht => ht2 (ht1 ht),
          ⟨δ1 ++ δ2, by rw [hq2, hq1, List.append_assoc]⟩⟩
  · rw [if_neg hg] at h ⊢
    simp only at h ⊢
    exact testPlaces_none_facts ai places kb queue log h

theorem personTests_finds (k : Nat) (kb : KB) (queue : List QueueNode)
    (log : List Event) (places : List String) (ai : String)
    (hupfix : ∀ p ∈ places, up p = p) (hmem : "OLSZTYN" ∈ places)
    (ht : kb.testedLocations.contains CORRECT_ANSWER = false) :
    (personTests k kb queue log places ai).found = some "OLSZTYN" := by
  unfold personTests
  by_cases hg : (places.contains ai && shouldTestLocation kb ai) = true
  · rw [if_pos hg]
    cases hto : testOnePlace kb queue log ai with
    | mk found kb2 queue2 log2 =>
      cases found with
      | some r2 =>
        simp only
        obtain ⟨hr2, hup⟩ := testOnePlace_found kb queue log ai r2 (by rw [hto])
        have hc : places.contains ai = true := by
          cases hca : places.contains ai
          · rw [hca] at hg; simp at hg
          · rfl
        rw [contains_eq_decide] at hc
        have hai_mem : ai ∈ places := by simpa using hc
        have hai_eq : ai = "OLSZTYN" := by rw [← hupfix ai hai_mem]; exact hup
        rw [hr2, hai_eq]
      | none =>
        simp only
        have hone := testOnePlace_none_facts kb queue log ai (by rw [hto])
        rw [hto] at hone
        simp only at hone
        have hai : ai ≠ "OLSZTYN" := by
          intro he
          subst he
          have := testOnePlace_finds kb queue log ht
          rw [hto] at this
          simp at this
        exact testPlaces_finds ai places kb2 queue2 log2 hupfix hmem hai (hone.2.1 ht)
  · rw [if_neg hg]
    simp only
    have hai : ai ≠ "OLSZTYN" := by
      intro he
      subst he
      apply hg
      have h1 : places.contains "OLSZTYN" = true := by
        rw [contains_eq_decide]; simpa using hmem
      have h2 : shouldTestLocation kb "OLSZTYN" = true := by
        unfold shouldTestLocation
        have hup : up "OLSZTYN" = CORRECT_ANSWER := by decide
        rw [hup, ht]
        decide
      rw [h1, h2]
      rfl
    exact testPlaces_finds ai places kb queue log hupfix hmem hai ht

end Bfs
end BfsSearch
namespace BfsSearch
namespace Bfs

theorem processPerson_found (sugg : Nat → String) (k : Nat) (kb : KB)
    (queue : List QueueNode) (log : List Event) (value r : String)
    (h : (processPerson sugg k kb queue log value).found = some r) :
    r = "OLSZTYN" := by
  unfold processPerson at h
  cases hg : getData kb .people value with
  | mk res kb2 evs =>
    rw [hg] at h
    cases res with
    | some places =>
      simp only at h
      obtain ⟨hmem, hup⟩ := personTests_found k
        { kb2 with peopleLocations := setAssoc kb2.peopleLocations value places }
        queue (log ++ evs ++ [.advise]) places (up (sugg k)) r h
      have hupfix := getData_some_upfix kb .people value places (by rw [hg])
      rw [← hupfix r hmem]
      exact hup
    | none => simp at h

theorem processPerson_none_facts (sugg : Nat → String) (k : Nat) (kb : KB)
    (queue : List QueueNode) (log : List Event) (value : String)
    (h : (processPerson sugg k kb queue log value).found = none) :
    (kb.testedLocations.contains CORRECT_ANSWER = false →
      (processPerson sugg k kb queue log value).kb.testedLocations.contains CORRECT_ANSWER = false) ∧
    (kb.failedQueries.contains "ECHO" = false → value ≠ "ECHO" →
      (processPerson sugg k kb queue log value).kb.failedQueries.contains "ECHO" = false) ∧
    ∃ δ, (processPerson sugg k kb queue log value).queue = queue ++ δ := by
  unfold processPerson at h ⊢
  cases hg : getData kb .people value with
  | mk res kb2 evs =>
    rw [hg] at h
    have hfields := getData_fields kb .people value
    have hfailed := fun hc => getData_failed_contains kb .people value "ECHO" hc
    rw [hg] at hfields hfailed
    simp only at hfields hfailed
    have hEf : kb.failedQueries.contains "ECHO" = false → value ≠ "ECHO" →
        kb2.failedQueries.contains "ECHO" = false := by
      intro hfe hne
      cases hbool : kb2.failedQueries.contains "ECHO" with
      | false => rfl
      | true =>
        rcases hfailed hbool with h1 | h1
        · rw [hfe] at h1; exact absurd h1 (by simp)
        · exact absurd h1.symm hne
    cases res with
    | some places =>
      simp only at h ⊢
      obtain ⟨hf1, ht1, δ1, hq1⟩ := personTests_none_facts k
        { kb2 with peopleLocations := setAssoc kb2.peopleLocations value places }
        queue (log ++ evs ++ [.advise]) places (up (sugg k)) h
      refine ⟨?_, ?_, ⟨δ1, hq1⟩⟩
      · intro ht
        apply ht1
        have : kb2.testedLocations = kb.testedLocations := hfields.1
        simp only [this]
        exact ht
      · intro hfe hne
        rw [hf1]
        exact hEf hfe hne
    | none =>
      simp only at h ⊢
      exact ⟨fun ht => by rw [hfields.1]; exact ht,
        fun hfe hne => hEf hfe hne, ⟨[], by simp⟩⟩

theorem processPerson_echo (sugg : Nat → String) (k : Nat) (kb : KB)
    (queue : List QueueNode) (log : List Event)
    (ht : kb.testedLocations.contains CORRECT_ANSWER = false)
    (hf : kb.failedQueries.contains "ECHO" = false) :
    (processPerson sugg k kb queue log "ECHO").found = some "OLSZTYN" := by
  have hsim : simData .people "ECHO" =
      some ["GDANSK", "POZNAN", "WARSZAWA", "WROCLAW", "OLSZTYN"] := by decide
  have hgd : getData kb .people "ECHO" =
      ⟨some ["GDANSK", "POZNAN", "WARSZAWA", "WROCLAW", "OLSZTYN"], kb,
       [.lookup .people "ECHO"]⟩ := by
    unfold getData
    rw [if_neg (by rw [hf]; simp), hsim]
    rfl
  unfold processPerson
  rw [hgd]
  exact personTests_finds k _ queue _ _ _ (by decide) (by decide) ht

end Bfs
end BfsSearch
namespace BfsSearch
namespace Bfs

/-- `processNode` on a city node is the city branch. -/
theorem processNode_city (sugg : Nat → String) (k : Nat) (kb : KB)
    (queue : List QueueNode) (log : List Event) (v : String) :
    processNode sugg k kb queue log ⟨.city, v⟩ = processCity sugg k kb queue log v := rfl

/-- `processNode` on a person node is the person branch. -/
theorem processNode_person (sugg : Nat → String) (k : Nat) (kb : KB)
    (queue : List QueueNode) (log : List Event) (v : String) :
    processNode sugg k kb queue log ⟨.person, v⟩ = processPerson sugg k kb queue log v := rfl

/-- Any early `return` of the `while` body returns the correct answer. -/
theorem processNode_found (sugg : Nat → String) (k : Nat) (kb : KB)
    (queue : List QueueNode) (log : List Event) (current : QueueNode) (r : String)
    (h : (processNode sugg k kb queue log current).found = some r) :
    r = "OLSZTYN" := by
  cases current with
  | mk t v =>
    cases t
    · rw [processNode_city] at h
      rw [(processCity_facts sugg k kb queue log v).1] at h
      exact absurd h (by simp)
    · rw [processNode_person] at h
      exact processPerson_found sugg k kb queue log v r h

/-- A non-returning `while` body iteration preserves the key invariants and
only appends to the frontier. -/
theorem processNode_none_facts (sugg : Nat → String) (k : Nat) (kb : KB)
    (queue : List QueueNode) (log : List Event) (current : QueueNode)
    (h : (processNode sugg k kb queue log current).found = none) :
    (kb.testedLocations.contains CORRECT_ANSWER = false →
      (processNode sugg k kb queue log current).kb.testedLocations.contains CORRECT_ANSWER = false) ∧
    (kb.failedQueries.contains "ECHO" = false → current.value ≠ "ECHO" →
      (processNode sugg k kb queue log current).kb.failedQueries.contains "ECHO" = false) ∧
    ∃ δ, (processNode sugg k kb queue log current).queue = queue ++ δ := by
  cases current with
  | mk t v =>
    cases t
    · rw [processNode_city] at h ⊢
      obtain ⟨_, htested, hfailed, δ, hq⟩ := processCity_facts sugg k kb queue log v
      exact ⟨fun ht => by rw [htested]; exact ht, hfailed, ⟨δ, hq⟩⟩
    · rw [processNode_person] at h ⊢
      exact processPerson_none_facts sugg k kb queue log v h

/-- Processing the person node `ECHO` finds the correct answer. -/
theorem processNode_echo (sugg : Nat → String) (k : Nat) (kb : KB)
    (queue : List QueueNode) (log : List Event)
    (ht : kb.testedLocations.contains CORRECT_ANSWER = false)
    (hf : kb.failedQueries.contains "ECHO" = false) :
    (processNode sugg k kb queue log ⟨.person, "ECHO"⟩).found = some "OLSZTYN" := by
  rw [processNode_person]
  exact processPerson_echo sugg k kb queue log ht hf

/-- One unfolding step of the draining loop at a pending slot. -/
theorem loop_step (sugg : Nat → String) (fuel k : Nat) (kb : KB)
    (queue : List QueueNode) (i : Nat) (log : List Event) (current : QueueNode)
    (h : queue[i]? = some current) :
    loop sugg (fuel + 1) k kb queue i log =
      (match processNode sugg k kb queue log current with
       | ⟨some r, _, kb2, queue2, log2⟩ => (⟨.found r, kb2, queue2, log2⟩ : RunOut)
       | ⟨none, k2, kb2, queue2, log2⟩ => loop sugg fuel k2 kb2 queue2 (i + 1) log2) := by
  conv_lhs => rw [loop]
  rw [h]

/-- Main reachability lemma for the draining loop: if some still-pending
queue slot holds the person node `ECHO`, no earlier pending slot holds a
node named `ECHO`, the correct answer is untested and the query `ECHO` is
uncached, then the loop ends with `found "OLSZTYN"`, for every advisor
behaviour. -/
theorem loop_finds (sugg : Nat → String) :
    ∀ (fuel k : Nat) (kb : KB) (queue : List QueueNode) (i : Nat) (log : List Event)
      (j : Nat),
    queue[j]? = some ⟨.person, "ECHO"⟩ →
    i ≤ j →
    (∀ m, i ≤ m → m < j → ∀ nd, queue[m]? = some nd → nd.value ≠ "ECHO") →
    kb.testedLocations.contains CORRECT_ANSWER = false →
    kb.failedQueries.contains "ECHO" = false →
    j - i < fuel →
    (loop sugg fuel k kb queue i log).result = .found "OLSZTYN" := by
  intro fuel
  induction fuel with
  | zero => intro k kb queue i log j _ _ _ _ _ h6; omega
  | succ n ih =>
    intro k kb queue i log j h1 h2 h3 h4 h5 h6
    have hjlen : j < queue.length := by
      rw [List.getElem?_eq_some] at h1
      exact h1.1
    by_cases hij : i = j
    · subst hij
      rw [loop_step sugg n k kb queue i log _ h1]
      cases hs : processNode sugg k kb queue log ⟨.person, "ECHO"⟩ with
      | mk found k2 kb2 queue2 log2 =>
        have hfound := processNode_echo sugg k kb queue log h4 h5
        rw [hs] at hfound
        simp only at hfound
        subst hfound
        rfl
    · have hlt : i < j := lt_of_le_of_ne h2 hij
      have hilen : i < queue.length := lt_trans hlt hjlen
      obtain ⟨current, hcur⟩ : ∃ c, queue[i]? = some c :=
        ⟨queue[i], List.getElem?_eq_getElem hilen⟩
      rw [loop_step sugg n k kb queue i log current hcur]
      cases hs : processNode sugg k kb queue log current with
      | mk found k2 kb2 queue2 log2 =>
        cases found with
        | some r =>
          have hr : r = "OLSZTYN" := processNode_found sugg k kb queue log current r (by rw [hs])
          subst hr
          rfl
        | none =>
          show (loop sugg n k2 kb2 queue2 (i + 1) log2).result = RunResult.found "OLSZTYN"
          have hnone := processNode_none_facts sugg k kb queue log current (by rw [hs])
          rw [hs] at hnone
          simp only at hnone
          obtain ⟨htp, hfp, δ, hqext⟩ := hnone
          have hcurne : current.value ≠ "ECHO" := h3 i le_rfl hlt current hcur
          apply ih k2 kb2 queue2 (i + 1) log2 j
          · rw [hqext]
            rw [List.getElem?_append_left hjlen]
            exact h1
          · omega
          · intro m hm1 hm2 nd hnd
            rw [hqext, List.getElem?_append_left (lt_trans hm2 hjlen)] at hnd
            exact h3 m (by omega) hm2 nd hnd
          · exact htp h4
          · exact hfp h5 hcurne
          · omega

end Bfs
end BfsSearch

namespace BfsSearch
namespace Bfs

theorem seedQueue_eq (sugg : Nat → String) :
    seedQueue sugg =
      ⟨⟨[], [], ["Gdansk", "Poznan"], [], [], []⟩,
       [⟨.city, "Gdansk"⟩, ⟨.city, "Poznan"⟩],
       [.advise, .enqueue .city "Gdansk", .enqueue .city "Poznan"]⟩ := by
  unfold seedQueue
  rw [if_neg (by rw [not_initial_up]; simp)]
  rfl

theorem prioritize_gdansk (a : String) :
    prioritize ["MONIKA", "PAWEL", "ECHO"] a = ["MONIKA", "PAWEL", "ECHO"] ∨
    prioritize ["MONIKA", "PAWEL", "ECHO"] a = ["PAWEL", "MONIKA", "ECHO"] ∨
    prioritize ["MONIKA", "PAWEL", "ECHO"] a = ["ECHO", "MONIKA", "PAWEL"] := by
  by_cases h1 : a = "MONIKA"
  · subst h1; left; decide
  by_cases h2 : a = "PAWEL"
  · subst h2; right; left; decide
  by_cases h3 : a = "ECHO"
  · subst h3; right; right; decide
  left
  unfold prioritize
  rw [if_neg]
  intro hc
  rw [contains_eq_decide] at hc
  simp at hc
  rcases hc with h | h | h
  · exact h1 h
  · exact h2 h
  · exact h3 h

/-- The end-to-end theorem for the simulated-data search: independently of
the advisor suggestions, `agentLoop` on the simulated relation terminates
with the correct answer `OLSZTYN` (six fuel units suffice). -/
theorem runSearch_finds (sugg : Nat → String) (fuel : Nat) :
    (runSearch sugg (fuel + 6)).result = .found "OLSZTYN" := by
  unfold runSearch
  rw [seedQueue_eq]
  show (loop sugg (fuel + 6) 1 ⟨[], [], ["Gdansk", "Poznan"], [], [], []⟩
      [⟨.city, "Gdansk"⟩, ⟨.city, "Poznan"⟩]
      0 [.advise, .enqueue .city "Gdansk", .enqueue .city "Poznan"]).result =
    .found "OLSZTYN"
  rw [loop_step sugg (fuel + 5) 1 _ _ 0 _ ⟨.city, "Gdansk"⟩ (by decide)]
  have hgd : getData ⟨[], [], ["Gdansk", "Poznan"], [], [], []⟩ .places "Gdansk" =
      ⟨some ["MONIKA", "PAWEL", "ECHO"], ⟨[], [], ["Gdansk", "Poznan"], [], [], []⟩,
       [.lookup .places "Gdansk"]⟩ := by decide
  have hpc : processNode sugg 1 ⟨[], [], ["Gdansk", "Poznan"], [], [], []⟩
      [⟨.city, "Gdansk"⟩, ⟨.city, "Poznan"⟩]
      [.advise, .enqueue .city "Gdansk", .enqueue .city "Poznan"] ⟨.city, "Gdansk"⟩ =
      match pushPersons
          ⟨[], [("Gdansk", ["MONIKA", "PAWEL", "ECHO"])], ["Gdansk", "Poznan"], [], [], []⟩
          [⟨.city, "Gdansk"⟩, ⟨.city, "Poznan"⟩]
          [.advise, .enqueue .city "Gdansk", .enqueue .city "Poznan",
           .lookup .places "Gdansk", .advise]
          (prioritize ["MONIKA", "PAWEL", "ECHO"] (up (sugg 1))) with
      | ⟨kb, queue, log⟩ => (⟨none, 2, kb, queue, log⟩ : StepOut) := by
    rw [processNode_city]
    unfold processCity
    rw [hgd]
    rfl
  rw [hpc]
  rcases prioritize_gdansk (up (sugg 1)) with hp | hp | hp <;> rw [hp]
  · have hpp : pushPersons
        ⟨[], [("Gdansk", ["MONIKA", "PAWEL", "ECHO"])], ["Gdansk", "Poznan"], [], [], []⟩
        [⟨.city, "Gdansk"⟩, ⟨.city, "Poznan"⟩]
        [.advise, .enqueue .city "Gdansk", .enqueue .city "Poznan",
         .lookup .places "Gdansk", .advise]
        ["MONIKA", "PAWEL", "ECHO"] =
        ⟨⟨[], [("Gdansk", ["MONIKA", "PAWEL", "ECHO"])], ["Gdansk", "Poznan"],
          ["MONIKA", "PAWEL", "ECHO"], [], []⟩,
         [⟨.city, "Gdansk"⟩, ⟨.city, "Poznan"⟩, ⟨.person, "MONIKA"⟩,
          ⟨.person, "PAWEL"⟩, ⟨.person, "ECHO"⟩],
         [.advise, .enqueue .city "Gdansk", .enqueue .city "Poznan",
          .lookup .places "Gdansk", .advise, .enqueue .person "MONIKA",
          .enqueue .person "PAWEL", .enqueue .person "ECHO"]⟩ := by decide
    rw [hpp]
    exact loop_finds sugg (fuel + 5) 2 _ _ 1 _ 4 (by decide) (by omega)
      (by intro m hm1 hm2 nd hnd
          interval_cases m <;> (simp at hnd; subst hnd; decide))
      (by decide) (by decide) (by omega)
  · have hpp : pushPersons
        ⟨[], [("Gdansk", ["MONIKA", "PAWEL", "ECHO"])], ["Gdansk", "Poznan"], [], [], []⟩
        [⟨.city, "Gdansk"⟩, ⟨.city, "Poznan"⟩]
        [.advise, .enqueue .city "Gdansk", .enqueue .city "Poznan",
         .lookup .places "Gdansk", .advise]
        ["PAWEL", "MONIKA", "ECHO"] =
        ⟨⟨[], [("Gdansk", ["MONIKA", "PAWEL", "ECHO"])], ["Gdansk", "Poznan"],
          ["PAWEL", "MONIKA", "ECHO"], [], []⟩,
         [⟨.city, "Gdansk"⟩, ⟨.city, "Poznan"⟩, ⟨.person, "PAWEL"⟩,
          ⟨.person, "MONIKA"⟩, ⟨.person, "ECHO"⟩],
         [.advise, .enqueue .city "Gdansk", .enqueue .city "Poznan",
          .lookup .places "Gdansk", .advise, .enqueue .person "PAWEL",
          .enqueue .person "MONIKA", .enqueue .person "ECHO"]⟩ := by decide
    rw [hpp]
    exact loop_finds sugg (fuel + 5) 2 _ _ 1 _ 4 (by decide) (by omega)
      (by intro m hm1 hm2 nd hnd
          interval_cases m <;> (simp at hnd; subst hnd; decide))
      (by decide) (by decide) (by omega)
  · have hpp : pushPersons
        ⟨[], [("Gdansk", ["MONIKA", "PAWEL", "ECHO"])], ["Gdansk", "Poznan"], [], [], []⟩
        [⟨.city, "Gdansk"⟩, ⟨.city, "Poznan"⟩]
        [.advise, .enqueue .city "Gdansk", .enqueue .city "Poznan",
         .lookup .places "Gdansk", .advise]
        ["ECHO", "MONIKA", "PAWEL"] =
        ⟨⟨[], [("Gdansk", ["MONIKA", "PAWEL", "ECHO"])], ["Gdansk", "Poznan"],
          ["ECHO", "MONIKA", "PAWEL"], [], []⟩,
         [⟨.city, "Gdansk"⟩, ⟨.city, "Poznan"⟩, ⟨.person, "ECHO"⟩,
          ⟨.person, "MONIKA"⟩, ⟨.person, "PAWEL"⟩],
         [.advise, .enqueue .city "Gdansk", .enqueue .city "Poznan",
          .lookup .places "Gdansk", .advise, .enqueue .person "ECHO",
          .enqueue .person "MONIKA", .enqueue .person "PAWEL"]⟩ := by decide
    rw [hpp]
    exact loop_finds sugg (fuel + 5) 2 _ _ 1 _ 2 (by decide) (by omega)
      (by intro m hm1 hm2 nd hnd
          interval_cases m <;> (simp at hnd; subst hnd; decide))
      (by decide) (by decide) (by omega)

end Bfs
end BfsSearch

namespace BfsSearch

theorem startsWithChars_iff (needle : List Char) : ∀ hay,
    startsWithChars needle hay = true ↔ ∃ t, hay = needle ++ t := by
  induction needle with
  | nil => intro hay; simp [startsWithChars]
  | cons a as ih =>
    intro hay
    cases hay with
    | nil =>
      simp [startsWithChars]
    | cons b bs =>
      rw [show startsWithChars (a :: as) (b :: bs) = (a == b && startsWithChars as bs) from rfl]
      rw [Bool.and_eq_true, beq_iff_eq, ih bs]
      constructor
      · rintro ⟨hab, t, ht⟩
        exact ⟨t, by rw [hab, ht]; rfl⟩
      · rintro ⟨t, ht⟩
        injection ht with h1 h2
        exact ⟨h1.symm, t, h2⟩

theorem hasSubChars_iff (needle : List Char) : ∀ hay,
    hasSubChars needle hay = true ↔ ∃ pre suf, hay = pre ++ needle ++ suf := by
  intro hay
  induction hay with
  | nil =>
    rw [show hasSubChars needle [] = startsWithChars needle [] from rfl]
    rw [startsWithChars_iff]
    constructor
    · rintro ⟨t, ht⟩
      exact ⟨[], t, by simpa using ht⟩
    · rintro ⟨pre, suf, h⟩
      refine ⟨suf, ?_⟩
      cases pre with
      | nil => simpa using h
      | cons p ps => simp at h
  | cons c rest ih =>
    rw [show hasSubChars needle (c :: rest) =
        (startsWithChars needle (c :: rest) || hasSubChars needle rest) from rfl]
    rw [Bool.or_eq_true, startsWithChars_iff, ih]
    constructor
    · rintro (⟨t, ht⟩ | ⟨pre, suf, h⟩)
      · exact ⟨[], t, by simpa using ht⟩
      · exact ⟨c :: pre, suf, by rw [h]; rfl⟩
    · rintro ⟨pre, suf, h⟩
      cases pre with
      | nil => exact .inl ⟨suf, by simpa using h⟩
      | cons p ps =>
        injection h with h1 h2
        exact .inr ⟨ps, suf, h2⟩

/-- Correctness of the embedded `String.prototype.includes`: it holds
exactly of case-sensitive substrings. -/
theorem strIncludes_iff (s sub : String) :
    strIncludes s sub = true ↔ ∃ pre suf, s.data = pre ++ sub.data ++ suf := by
  unfold strIncludes
  exact hasSubChars_iff sub.data s.data

namespace Live

/-- The keyword classifier holds exactly when some keyword occurs as a
case-sensitive substring of the message. -/
theorem isErrorResponse_iff (m : String) :
    isErrorResponse m = true ↔
      ∃ k ∈ ERROR_KEYWORDS, ∃ pre suf, m.data = pre ++ k.data ++ suf := by
  unfold isErrorResponse
  rw [List.any_eq_true]
  constructor
  · rintro ⟨k, hk, hinc⟩
    exact ⟨k, hk, (strIncludes_iff m k).1 hinc⟩
  · rintro ⟨k, hk, hsub⟩
    exact ⟨k, hk, (strIncludes_iff m k).2 hsub⟩

/-- Classified responses are cached into `failedQueries` and yield absent. -/
theorem getData_classified (fenv : Nat → FetchResp) (nF : Nat) (kb : KB)
    (e : EndpointT) (q m : String)
    (hc : kb.failedQueries.contains q = false)
    (henv : fenv nF = .ok (some m))
    (herr : isErrorResponse m = true) :
    getData fenv nF kb e q =
      ⟨none, { kb with failedQueries := kb.failedQueries ++ [q] }, nF + 1,
       [.fetchReq e q]⟩ := by
  unfold getData
  rw [if_neg (by rw [hc]; simp), henv]
  simp only
  rw [if_pos herr]

/-- Cache-hit short-circuit of the live `getData`: absent result, no request
issued, state untouched. -/
theorem getDataLive_cached (fenv : Nat → FetchResp) (nF : Nat) (kb : KB)
    (e : EndpointT) (q : String)
    (hc : kb.failedQueries.contains q = true) :
    getData fenv nF kb e q = ⟨none, kb, nF, []⟩ := by
  unfold getData
  rw [if_pos hc]

/-- An empty token list is returned as absent without touching
`failedQueries` (live variant). -/
theorem getData_empty_not_cached (fenv : Nat → FetchResp) (nF : Nat) (kb : KB)
    (e : EndpointT) (q m : String)
    (hc : kb.failedQueries.contains q = false)
    (henv : fenv nF = .ok (some m))
    (herr : isErrorResponse m = false)
    (htok : jsTokens m = []) :
    getData fenv nF kb e q = ⟨none, kb, nF + 1, [.fetchReq e q]⟩ := by
  unfold getData
  rw [if_neg (by rw [hc]; simp), henv]
  simp only
  rw [if_neg (by rw [herr]; simp), htok]
  rfl

/-- An already-tested candidate is rejected without an external call and
without any state change. -/
theorem testTarget_cached (venv : Nat → ValResp) (nV : Nat) (kb : KB) (c : String)
    (hc : kb.testedTargets.contains c = true) :
    testTarget venv nV kb c = ⟨false, kb, nV, [.valCall c false]⟩ := by
  unfold testTarget
  rw [if_pos hc]

/-- A fresh candidate is marked tested (the state passed onwards already
contains it) and exactly one validation request is issued. -/
theorem testTarget_fresh (venv : Nat → ValResp) (nV : Nat) (kb : KB) (c : String)
    (hc : kb.testedTargets.contains c = false) :
    (testTarget venv nV kb c).kb.testedTargets.contains c = true ∧
    (testTarget venv nV kb c).kb.testedTargets = kb.testedTargets ++ [c] ∧
    (testTarget venv nV kb c).evs = [.valReq c, .valCall c (isSuccessResp (venv nV))] := by
  unfold testTarget
  rw [if_neg (by rw [hc]; simp)]
  refine ⟨?_, rfl, rfl⟩
  simp only [Bfs.contains_eq_decide]
  simp

/-- The second `testTarget` call on the same candidate returns false with no
external request and no state change. -/
theorem testTarget_second (venv : Nat → ValResp) (nV : Nat) (kb : KB) (c : String) :
    testTarget venv (testTarget venv nV kb c).nV (testTarget venv nV kb c).kb c =
      ⟨false, (testTarget venv nV kb c).kb, (testTarget venv nV kb c).nV,
       [.valCall c false]⟩ := by
  apply testTarget_cached
  by_cases hc : kb.testedTargets.contains c = true
  · rw [testTarget_cached venv nV kb c hc]
    exact hc
  · have hcf : kb.testedTargets.contains c = false := by
      cases h : kb.testedTargets.contains c
      · rfl
      · exact absurd h hc
    exact (testTarget_fresh venv nV kb c hcf).1

end Live
end BfsSearch
namespace BfsSearch

/-- In a list of the form `A ++ [x]`, an occurrence of `e ∉ A` is the last
element. -/
theorem append_single_eq_middle {α : Type} (A l1 l2 : List α) (x e : α)
    (h : A ++ [x] = l1 ++ e :: l2) (hA : e ∉ A) : l2 = [] ∧ x = e := by
  rcases List.eq_nil_or_concat l2 with h2 | ⟨l2', a, h2⟩
  · subst h2
    have h3 := List.append_inj' h (by simp)
    have h4 : x = e := by simpa using h3.2
    exact ⟨rfl, h4⟩
  · subst h2
    rw [List.concat_eq_append] at h
    rw [show l1 ++ e :: (l2' ++ [a]) = (l1 ++ e :: l2') ++ [a] by simp] at h
    have h3 := List.append_inj' h (by simp)
    have he : e ∈ A := by rw [h3.1]; simp
    exact absurd he hA

namespace Bfs

theorem testLocation_evs (kb : KB) (l : String) :
    (testLocation kb l).evs = [.validate l (testLocation kb l).ok] := by
  unfold testLocation
  split
  · rfl
  · rfl

theorem testOnePlace_log_none (kb : KB) (queue : List QueueNode) (log : List Event)
    (place : String) (h : (testOnePlace kb queue log place).found = none) :
    ∃ δ, (testOnePlace kb queue log place).log = log ++ δ ∧
      ∀ c, Event.validate c true ∉ δ := by
  unfold testOnePlace at h ⊢
  by_cases hok : (testLocation kb place).ok = true
  · rw [if_pos hok] at h; exact absurd h (by simp)
  · have hokf : (testLocation kb place).ok = false := by simp at hok; exact hok
    rw [if_neg hok]
    by_cases hv : (testLocation kb place).kb.visitedCities.contains place = true
    · rw [if_pos hv]
      refine ⟨(testLocation kb place).evs, rfl, ?_⟩
      rw [testLocation_evs, hokf]
      intro c hc
      simp at hc
    · rw [if_neg hv]
      refine ⟨(testLocation kb place).evs ++ [.enqueue .city place], by simp, ?_⟩
      rw [testLocation_evs, hokf]
      intro c hc
      simp at hc

theorem testOnePlace_log_some (kb : KB) (queue : List QueueNode) (log : List Event)
    (place r : String) (h : (testOnePlace kb queue log place).found = some r) :
    (testOnePlace kb queue log place).log = log ++ [.validate r true] := by
  unfold testOnePlace at h ⊢
  by_cases hok : (testLocation kb place).ok = true
  · rw [if_pos hok] at h ⊢
    have hr : place = r := Option.some.inj h
    rw [testLocation_evs, hok, hr]
  · rw [if_neg hok] at h
    by_cases hv : (testLocation kb place).kb.visitedCities.contains place = true
    · rw [if_pos hv] at h; exact absurd h (by simp)
    · rw [if_neg hv] at h; exact absurd h (by simp)

theorem testPlaces_log (ai : String) (places : List String) :
    ∀ (kb : KB) (queue : List QueueNode) (log : List Event),
    ((testPlaces kb queue log ai places).found = none →
      ∃ δ, (testPlaces kb queue log ai places).log = log ++ δ ∧
        ∀ c, Event.validate c true ∉ δ) ∧
    (∀ r, (testPlaces kb queue log ai places).found = some r →
      ∃ δ, (testPlaces kb queue log ai places).log = log ++ δ ++ [.validate r true] ∧
        ∀ c, Event.validate c true ∉ δ) := by
  induction places with
  | nil =>
    intro kb queue log
    constructor
    · intro _; exact ⟨[], by simp [testPlaces], by intro c hc; simp at hc⟩
    · intro r h; exact absurd h (by simp [testPlaces])
  | cons p rest ih =>
    intro kb queue log
    unfold testPlaces
    by_cases hg : (p != ai && shouldTestLocation kb p) = true
    · rw [if_pos hg]
      cases hto : testOnePlace kb queue log p with
      | mk found kb2 queue2 log2 =>
        cases found with
        | some r2 =>
          constructor
          · intro h; simp at h
          · intro r h
            simp only at h
            have hr : r2 = r := Option.some.inj h
            have hl := testOnePlace_log_some kb queue log p r2 (by rw [hto])
            rw [hto] at hl
            simp only at hl
            subst hr
            exact ⟨[], by simpa using hl, by intro c hc; simp at hc⟩
        | none =>
          have hl := testOnePlace_log_none kb queue log p (by rw [hto])
          rw [hto] at hl
          simp only at hl
          obtain ⟨δ1, hδ1, hn1⟩ := hl
          subst hδ1
          constructor
          · intro h
            simp only at h
            obtain ⟨δ2, hδ2, hn2⟩ := (ih kb2 queue2 (log ++ δ1)).1 h
            refine ⟨δ1 ++ δ2, by rw [hδ2, List.append_assoc], ?_⟩
            intro c hc
            rcases List.mem_append.1 hc with hc | hc
            · exact hn1 c hc
            · exact hn2 c hc
          · intro r h
            simp only at h
            obtain ⟨δ2, hδ2, hn2⟩ := (ih kb2 queue2 (log ++ δ1)).2 r h
            refine ⟨δ1 ++ δ2, by rw [hδ2]; simp, ?_⟩
            intro c hc
            rcases List.mem_append.1 hc with hc | hc
            · exact hn1 c hc
            · exact hn2 c hc
    · rw [if_neg hg]
      exact ih kb queue log

end Bfs
end BfsSearch
namespace BfsSearch
namespace Bfs

theorem getData_evs (kb : KB) (e : Endpoint) (q : String) :
    (getData kb e q).evs = [] ∨ (getData kb e q).evs = [.lookup e q] := by
  unfold getData
  split
  · exact .inl rfl
  · split
    · split
      · exact .inr rfl
      · exact .inr rfl
    · exact .inr rfl

theorem no_validate_append (δ1 δ2 : List Event)
    (h1 : ∀ c, Event.validate c true ∉ δ1) (h2 : ∀ c, Event.validate c true ∉ δ2) :
    ∀ c, Event.validate c true ∉ δ1 ++ δ2 := by
  intro c hc
  rcases List.mem_append.1 hc with hc | hc
  · exact h1 c hc
  · exact h2 c hc

theorem no_validate_advise : ∀ c, Event.validate c true ∉ [Event.advise] := by
  intro c hc
  simp at hc

theorem pushPersons_log (people : List String) :
    ∀ (kb : KB) (queue : List QueueNode) (log : List Event),
    ∃ δ, (pushPersons kb queue log people).log = log ++ δ ∧
      ∀ c, Event.validate c true ∉ δ := by
  induction people with
  | nil =>
    intro kb queue log
    exact ⟨[], by simp [pushPersons], by intro c hc; simp at hc⟩
  | cons p rest ih =>
    intro kb queue log
    unfold pushPersons
    by_cases hv : kb.visitedPeople.contains p = true
    · rw [if_pos hv]
      exact ih kb queue log
    · rw [if_neg hv]
      obtain ⟨δ, hδ, hn⟩ := ih { kb with visitedPeople := kb.visitedPeople ++ [p] }
        (queue ++ [⟨.person, p⟩]) (log ++ [.enqueue .person p])
      refine ⟨.enqueue .person p :: δ, by rw [hδ]; simp, ?_⟩
      intro c hc
      rcases List.mem_cons.1 hc with hc | hc
      · simp at hc
      · exact hn c hc

theorem processCity_log (sugg : Nat → String) (k : Nat) (kb : KB)
    (queue : List QueueNode) (log : List Event) (value : String) :
    ∃ δ, (processCity sugg k kb queue log value).log = log ++ δ ∧
      ∀ c, Event.validate c true ∉ δ := by
  unfold processCity
  cases hg : getData kb .places value with
  | mk res kb2 evs =>
    have hevs := getData_evs kb .places value
    rw [hg] at hevs
    simp only at hevs
    have hevn : ∀ c, Event.validate c true ∉ evs := by
      rcases hevs with h | h <;> (subst h; intro c hc; simp at hc)
    cases res with
    | some people =>
      obtain ⟨δ, hδ, hn⟩ := pushPersons_log (prioritize people (up (sugg k)))
        { kb2 with cityPeople := setAssoc kb2.cityPeople value people }
        queue (log ++ evs ++ [.advise])
      refine ⟨evs ++ [.advise] ++ δ,
        ?_, no_validate_append _ _ (no_validate_append _ _ hevn no_validate_advise) hn⟩
      show (pushPersons _ _ _ _).log = _
      rw [hδ]
      simp
    | none =>
      exact ⟨evs, rfl, hevn⟩

theorem personTests_log (k : Nat) (kb : KB) (queue : List QueueNode)
    (log : List Event) (places : List String) (ai : String) :
    ((personTests k kb queue log places ai).found = none →
      ∃ δ, (personTests k kb queue log places ai).log = log ++ δ ∧
        ∀ c, Event.validate c true ∉ δ) ∧
    (∀ r, (personTests k kb queue log places ai).found = some r →
      ∃ δ, (personTests k kb queue log places ai).log = log ++ δ ++ [.validate r true] ∧
        ∀ c, Event.validate c true ∉ δ) := by
  unfold personTests
  by_cases hg : (places.contains ai && shouldTestLocation kb ai) = true
  · rw [if_pos hg]
    cases hto : testOnePlace kb queue log ai with
    | mk found kb2 queue2 log2 =>
      cases found with
      | some r2 =>
        constructor
        · intro h; simp at h
        · intro r h
          simp only at h
          have hr : r2 = r := Option.some.inj h
          have hl := testOnePlace_log_some kb queue log ai r2 (by rw [hto])
          rw [hto] at hl
          simp only at hl
          subst hr
          exact ⟨[], by simpa using hl, by intro c hc; simp at hc⟩
      | none =>
        have hl := testOnePlace_log_none kb queue log ai (by rw [hto])
        rw [hto] at hl
        simp only at hl
        obtain ⟨δ1, hδ1, hn1⟩ := hl
        subst hδ1
        constructor
        · intro h
          obtain ⟨δ2, hδ2, hn2⟩ := (testPlaces_log ai places kb2 queue2 (log ++ δ1)).1 h
          refine ⟨δ1 ++ δ2, ?_, no_validate_append δ1 δ2 hn1 hn2⟩
          show (testPlaces kb2 queue2 (log ++ δ1) ai places).log = log ++ (δ1 ++ δ2)
          rw [hδ2, List.append_assoc]
        · intro r h
          obtain ⟨δ2, hδ2, hn2⟩ := (testPlaces_log ai places kb2 queue2 (log ++ δ1)).2 r h
          refine ⟨δ1 ++ δ2, ?_, no_validate_append δ1 δ2 hn1 hn2⟩
          show (testPlaces kb2 queue2 (log ++ δ1) ai places).log =
            log ++ (δ1 ++ δ2) ++ [.validate r true]
          rw [hδ2]
          simp
  · rw [if_neg hg]
    simp only
    exact testPlaces_log ai places kb queue log

theorem processPerson_log (sugg : Nat → String) (k : Nat) (kb : KB)
    (queue : List QueueNode) (log : List Event) (value : String) :
    ((processPerson sugg k kb queue log value).found = none →
      ∃ δ, (processPerson sugg k kb queue log value).log = log ++ δ ∧
        ∀ c, Event.validate c true ∉ δ) ∧
    (∀ r, (processPerson sugg k kb queue log value).found = some r →
      ∃ δ, (processPerson sugg k kb queue log value).log = log ++ δ ++ [.validate r true] ∧
        ∀ c, Event.validate c true ∉ δ) := by
  unfold processPerson
  cases hg : getData kb .people value with
  | mk res kb2 evs =>
    have hevs := getData_evs kb .people value
    rw [hg] at hevs
    simp only at hevs
    have hevn : ∀ c, Event.validate c true ∉ evs := by
      rcases hevs with h | h <;> (subst h; intro c hc; simp at hc)
    cases res with
    | some places =>
      have hmain := personTests_log k
        { kb2 with peopleLocations := setAssoc kb2.peopleLocations value places }
        queue (log ++ evs ++ [.advise]) places (up (sugg k))
      constructor
      · intro h
        obtain ⟨δ, hδ, hn⟩ := hmain.1 h
        refine ⟨evs ++ [.advise] ++ δ,
          ?_, no_validate_append _ _ (no_validate_append _ _ hevn no_validate_advise) hn⟩
        show (personTests _ _ _ _ _ _).log = _
        rw [hδ]
        simp
      · intro r h
        obtain ⟨δ, hδ, hn⟩ := hmain.2 r h
        refine ⟨evs ++ [.advise] ++ δ,
          ?_, no_validate_append _ _ (no_validate_append _ _ hevn no_validate_advise) hn⟩
        show (personTests _ _ _ _ _ _).log = _
        rw [hδ]
        simp
    | none =>
      constructor
      · intro _
        exact ⟨evs, rfl, hevn⟩
      · intro r h
        simp at h

theorem processNode_log (sugg : Nat → String) (k : Nat) (kb : KB)
    (queue : List QueueNode) (log : List Event) (current : QueueNode) :
    ((processNode sugg k kb queue log current).found = none →
      ∃ δ, (processNode sugg k kb queue log current).log = log ++ δ ∧
        ∀ c, Event.validate c true ∉ δ) ∧
    (∀ r, (processNode sugg k kb queue log current).found = some r →
      ∃ δ, (processNode sugg k kb queue log current).log = log ++ δ ++ [.validate r true] ∧
        ∀ c, Event.validate c true ∉ δ) := by
  cases current with
  | mk t v =>
    cases t
    · rw [processNode_city]
      constructor
      · intro _
        exact processCity_log sugg k kb queue log v
      · intro r h
        rw [(processCity_facts sugg k kb queue log v).1] at h
        exact absurd h (by simp)
    · rw [processNode_person]
      exact processPerson_log sugg k kb queue log v

end Bfs
end BfsSearch
namespace BfsSearch
namespace Bfs

theorem loop_none (sugg : Nat → String) (fuel k : Nat) (kb : KB)
    (queue : List QueueNode) (i : Nat) (log : List Event) (h : queue[i]? = none) :
    loop sugg (fuel + 1) k kb queue i log = ⟨.noData, kb, queue, log⟩ := by
  conv_lhs => rw [loop]
  rw [h]

theorem loop_log (sugg : Nat → String) :
    ∀ (fuel k : Nat) (kb : KB) (queue : List QueueNode) (i : Nat) (log : List Event),
    (∀ c, Event.validate c true ∉ log) →
    ((∃ r δ, (loop sugg fuel k kb queue i log).result = .found r ∧
        (loop sugg fuel k kb queue i log).log = δ ++ [.validate r true] ∧
        ∀ c, Event.validate c true ∉ δ) ∨
     ((∀ c, Event.validate c true ∉ (loop sugg fuel k kb queue i log).log) ∧
        ∀ r, (loop sugg fuel k kb queue i log).result ≠ .found r)) := by
  intro fuel
  induction fuel with
  | zero =>
    intro k kb queue i log hlog
    right
    exact ⟨hlog, by intro r h; exact absurd h (by simp [loop])⟩
  | succ n ih =>
    intro k kb queue i log hlog
    cases hq : queue[i]? with
    | none =>
      right
      rw [loop_none sugg n k kb queue i log hq]
      exact ⟨hlog, by intro r h; exact absurd h (by simp)⟩
    | some current =>
      rw [loop_step sugg n k kb queue i log current hq]
      cases hs : processNode sugg k kb queue log current with
      | mk found k2 kb2 queue2 log2 =>
        cases found with
        | some r =>
          obtain ⟨δ, hld, hδn⟩ := (processNode_log sugg k kb queue log current).2 r (by rw [hs])
          rw [hs] at hld
          simp only at hld
          left
          refine ⟨r, log ++ δ, rfl, ?_, no_validate_append log δ hlog hδn⟩
          show log2 = log ++ δ ++ [.validate r true]
          exact hld
        | none =>
          obtain ⟨δ, hld, hδn⟩ := (processNode_log sugg k kb queue log current).1 (by rw [hs])
          rw [hs] at hld
          simp only at hld
          have hlog2 : ∀ c, Event.validate c true ∉ log2 := by
            rw [hld]
            exact no_validate_append log δ hlog hδn
          exact ih k2 kb2 queue2 (i + 1) log2 hlog2

/-- Temporal property of the simulated-variant run: any successful
validation event is the final event of the run log, and the run result is
exactly that candidate. -/
theorem runSearch_log (sugg : Nat → String) (fuel : Nat) (l1 l2 : List Event) (c : String)
    (h : (runSearch sugg fuel).log = l1 ++ Event.validate c true :: l2) :
    l2 = [] ∧ (runSearch sugg fuel).result = .found c := by
  have hrun : runSearch sugg fuel =
      loop sugg fuel 1 ⟨[], [], ["Gdansk", "Poznan"], [], [], []⟩
        [⟨.city, "Gdansk"⟩, ⟨.city, "Poznan"⟩]
        0 [.advise, .enqueue .city "Gdansk", .enqueue .city "Poznan"] := by
    unfold runSearch
    rw [seedQueue_eq]
  rw [hrun] at h ⊢
  rcases loop_log sugg fuel 1 ⟨[], [], ["Gdansk", "Poznan"], [], [], []⟩
      [⟨.city, "Gdansk"⟩, ⟨.city, "Poznan"⟩]
      0 [.advise, .enqueue .city "Gdansk", .enqueue .city "Poznan"]
      (by intro c hc; simp at hc) with
    ⟨r, δ, hres, hlg, hδ⟩ | ⟨hno, hnf⟩
  · have hdec := append_single_eq_middle δ l1 l2 (.validate r true) (.validate c true)
      (by rw [← hlg, ← h]) (hδ c)
    refine ⟨hdec.1, ?_⟩
    rw [hres]
    have : r = c := by
      have := hdec.2
      injection this
    rw [this]
  · exfalso
    exact hno c (by rw [h]; simp)

end Bfs
end BfsSearch
namespace BfsSearch
namespace Live

theorem no_valCall_append (δ1 δ2 : List Ev)
    (h1 : ∀ c, Ev.valCall c true ∉ δ1) (h2 : ∀ c, Ev.valCall c true ∉ δ2) :
    ∀ c, Ev.valCall c true ∉ δ1 ++ δ2 := by
  intro c hc
  rcases List.mem_append.1 hc with hc | hc
  · exact h1 c hc
  · exact h2 c hc

theorem getDataLive_evs (fenv : Nat → FetchResp) (nF : Nat) (kb : KB)
    (e : EndpointT) (q : String) :
    (getData fenv nF kb e q).evs = [] ∨ (getData fenv nF kb e q).evs = [.fetchReq e q] := by
  unfold getData
  split
  · exact .inl rfl
  · split
    · exact .inr rfl
    · exact .inr rfl
    · split
      · exact .inr rfl
      · split
        · exact .inr rfl
        · exact .inr rfl

theorem testTarget_ok_evs (venv : Nat → ValResp) (nV : Nat) (kb : KB) (t : String)
    (h : (testTarget venv nV kb t).ok = true) :
    (testTarget venv nV kb t).evs = [.valReq t, .valCall t true] := by
  unfold testTarget at h ⊢
  split at h
  · exact absurd h (by simp)
  · rename_i hmem
    rw [if_neg hmem]
    simp only at h ⊢
    rw [h]

theorem testTarget_not_ok_evs (venv : Nat → ValResp) (nV : Nat) (kb : KB) (t : String)
    (h : (testTarget venv nV kb t).ok = false) :
    ∀ c, Ev.valCall c true ∉ (testTarget venv nV kb t).evs := by
  unfold testTarget at h ⊢
  by_cases hmem : kb.testedTargets.contains t = true
  · rw [if_pos hmem]
    intro c hc
    simp at hc
  · rw [if_neg hmem] at h ⊢
    simp only at h ⊢
    rw [h]
    intro c hc
    simp at hc

theorem testOneLoc_log_none (venv : Nat → ValResp) (nV : Nat) (kb : KB)
    (queue : List QNode) (log : List Ev) (loc : String)
    (h : (testOneLoc venv nV kb queue log loc).found = none) :
    ∃ δ, (testOneLoc venv nV kb queue log loc).log = log ++ δ ∧
      ∀ c, Ev.valCall c true ∉ δ := by
  unfold testOneLoc at h ⊢
  by_cases hok : (testTarget venv nV kb loc).ok = true
  · rw [if_pos hok] at h; exact absurd h (by simp)
  · have hokf : (testTarget venv nV kb loc).ok = false := by simp at hok; exact hok
    rw [if_neg hok]
    by_cases hv : (testTarget venv nV kb loc).kb.visitedLocations.contains loc = true
    · rw [if_pos hv]
      exact ⟨(testTarget venv nV kb loc).evs, rfl, testTarget_not_ok_evs venv nV kb loc hokf⟩
    · rw [if_neg hv]
      refine ⟨(testTarget venv nV kb loc).evs ++ [.push .location loc], by simp, ?_⟩
      intro c hc
      rcases List.mem_append.1 hc with hc | hc
      · exact testTarget_not_ok_evs venv nV kb loc hokf c hc
      · simp at hc

theorem testOneLoc_log_some (venv : Nat → ValResp) (nV : Nat) (kb : KB)
    (queue : List QNode) (log : List Ev) (loc r : String)
    (h : (testOneLoc venv nV kb queue log loc).found = some r) :
    (testOneLoc venv nV kb queue log loc).log = log ++ [.valReq r] ++ [.valCall r true] := by
  unfold testOneLoc at h ⊢
  by_cases hok : (testTarget venv nV kb loc).ok = true
  · rw [if_pos hok] at h ⊢
    have hr : loc = r := Option.some.inj h
    subst hr
    rw [testTarget_ok_evs venv nV kb loc hok]
    simp
  · rw [if_neg hok] at h
    by_cases hv : (testTarget venv nV kb loc).kb.visitedLocations.contains loc = true
    · rw [if_pos hv] at h; exact absurd h (by simp)
    · rw [if_neg hv] at h; exact absurd h (by simp)

theorem testLocs_log (venv : Nat → ValResp) (locations : List String) :
    ∀ (nV : Nat) (kb : KB) (queue : List QNode) (log : List Ev),
    ((testLocs venv nV kb queue log locations).found = none →
      ∃ δ, (testLocs venv nV kb queue log locations).log = log ++ δ ∧
        ∀ c, Ev.valCall c true ∉ δ) ∧
    (∀ r, (testLocs venv nV kb queue log locations).found = some r →
      ∃ δ, (testLocs venv nV kb queue log locations).log = log ++ δ ++ [.valCall r true] ∧
        ∀ c, Ev.valCall c true ∉ δ) := by
  induction locations with
  | nil =>
    intro nV kb queue log
    constructor
    · intro _; exact ⟨[], by simp [testLocs], by intro c hc; simp at hc⟩
    · intro r h; exact absurd h (by simp [testLocs])
  | cons loc rest ih =>
    intro nV kb queue log
    unfold testLocs
    by_cases hg : shouldTestTarget kb loc = true
    · rw [if_pos hg]
      cases hto : testOneLoc venv nV kb queue log loc with
      | mk found kb2 queue2 nV2 log2 =>
        cases found with
        | some r2 =>
          constructor
          · intro h; simp at h
          · intro r h
            simp only at h
            have hr : r2 = r := Option.some.inj h
            have hl := testOneLoc_log_some venv nV kb queue log loc r2 (by rw [hto])
            rw [hto] at hl
            simp only at hl
            subst hr
            refine ⟨[.valReq r2], by simpa using hl, ?_⟩
            intro c hc
            simp at hc
        | none =>
          have hl := testOneLoc_log_none venv nV kb queue log loc (by rw [hto])
          rw [hto] at hl
          simp only at hl
          obtain ⟨δ1, hδ1, hn1⟩ := hl
          subst hδ1
          constructor
          · intro h
            obtain ⟨δ2, hδ2, hn2⟩ := (ih nV2 kb2 queue2 (log ++ δ1)).1 h
            refine ⟨δ1 ++ δ2, ?_, no_valCall_append δ1 δ2 hn1 hn2⟩
            show (testLocs venv nV2 kb2 queue2 (log ++ δ1) rest).log = log ++ (δ1 ++ δ2)
            rw [hδ2, List.append_assoc]
          · intro r h
            obtain ⟨δ2, hδ2, hn2⟩ := (ih nV2 kb2 queue2 (log ++ δ1)).2 r h
            refine ⟨δ1 ++ δ2, ?_, no_valCall_append δ1 δ2 hn1 hn2⟩
            show (testLocs venv nV2 kb2 queue2 (log ++ δ1) rest).log =
              log ++ (δ1 ++ δ2) ++ [.valCall r true]
            rw [hδ2]
            simp
    · rw [if_neg hg]
      exact ih nV kb queue log

theorem pushEntities_log (entities : List String) :
    ∀ (kb : KB) (queue : List QNode) (log : List Ev),
    ∃ δ, (pushEntities kb queue log entities).log = log ++ δ ∧
      ∀ c, Ev.valCall c true ∉ δ := by
  induction entities with
  | nil =>
    intro kb queue log
    exact ⟨[], by simp [pushEntities], by intro c hc; simp at hc⟩
  | cons x rest ih =>
    intro kb queue log
    unfold pushEntities
    by_cases hv : kb.visitedEntities.contains x = true
    · rw [if_pos hv]
      exact ih kb queue log
    · rw [if_neg hv]
      obtain ⟨δ, hδ, hn⟩ := ih { kb with visitedEntities := kb.visitedEntities ++ [x] }
        (queue ++ [⟨.entity, x⟩]) (log ++ [.push .entity x])
      refine ⟨.push .entity x :: δ, by rw [hδ]; simp, ?_⟩
      intro c hc
      rcases List.mem_cons.1 hc with hc | hc
      · simp at hc
      · exact hn c hc

theorem processLocation_log (fenv : Nat → FetchResp) (nF nV : Nat) (kb : KB)
    (queue : List QNode) (log : List Ev) (value : String) :
    (processLocation fenv nF nV kb queue log value).found = none ∧
    ∃ δ, (processLocation fenv nF nV kb queue log value).log = log ++ δ ∧
      ∀ c, Ev.valCall c true ∉ δ := by
  unfold processLocation
  cases hg : getData fenv nF kb .locations value with
  | mk res kb2 nF2 evs =>
    have hevs := getDataLive_evs fenv nF kb .locations value
    rw [hg] at hevs
    simp only at hevs
    have hevn : ∀ c, Ev.valCall c true ∉ evs := by
      rcases hevs with h | h <;> (subst h; intro c hc; simp at hc)
    cases res with
    | some entities =>
      obtain ⟨δ, hδ, hn⟩ := pushEntities_log entities
        { kb2 with locationEntities := setAssoc kb2.locationEntities value entities }
        queue (log ++ evs)
      refine ⟨rfl, evs ++ δ, ?_, no_valCall_append evs δ hevn hn⟩
      show (pushEntities _ _ _ _).log = _
      rw [hδ]
      simp
    | none =>
      exact ⟨rfl, evs, rfl, hevn⟩

theorem processEntity_log (fenv : Nat → FetchResp) (venv : Nat → ValResp)
    (nF nV : Nat) (kb : KB) (queue : List QNode) (log : List Ev) (value : String) :
    ((processEntity fenv venv nF nV kb queue log value).found = none →
      ∃ δ, (processEntity fenv venv nF nV kb queue log value).log = log ++ δ ∧
        ∀ c, Ev.valCall c true ∉ δ) ∧
    (∀ r, (processEntity fenv venv nF nV kb queue log value).found = some r →
      ∃ δ, (processEntity fenv venv nF nV kb queue log value).log =
          log ++ δ ++ [.valCall r true] ∧
        ∀ c, Ev.valCall c true ∉ δ) := by
  unfold processEntity
  cases hg : getData fenv nF kb .entities value with
  | mk res kb2 nF2 evs =>
    have hevs := getDataLive_evs fenv nF kb .entities value
    rw [hg] at hevs
    simp only at hevs
    have hevn : ∀ c, Ev.valCall c true ∉ evs := by
      rcases hevs with h | h <;> (subst h; intro c hc; simp at hc)
    cases res with
    | some locations =>
      have hmain := testLocs_log venv locations nV
        { kb2 with entityLocations := setAssoc kb2.entityLocations value locations }
        queue (log ++ evs)
      constructor
      · intro h
        obtain ⟨δ, hδ, hn⟩ := hmain.1 h
        refine ⟨evs ++ δ, ?_, no_valCall_append evs δ hevn hn⟩
        show (testLocs _ _ _ _ _ _).log = _
        rw [hδ]
        simp
      · intro r h
        obtain ⟨δ, hδ, hn⟩ := hmain.2 r h
        refine ⟨evs ++ δ, ?_, no_valCall_append evs δ hevn hn⟩
        show (testLocs _ _ _ _ _ _).log = _
        rw [hδ]
        simp
    | none =>
      constructor
      · intro _
        exact ⟨evs, rfl, hevn⟩
      · intro r h
        simp at h

theorem processQNode_location (fenv : Nat → FetchResp) (venv : Nat → ValResp)
    (nF nV : Nat) (kb : KB) (queue : List QNode) (log : List Ev) (v : String) :
    processQNode fenv venv nF nV kb queue log ⟨.location, v⟩ =
      processLocation fenv nF nV kb queue log v := rfl

theorem processQNode_entity (fenv : Nat → FetchResp) (venv : Nat → ValResp)
    (nF nV : Nat) (kb : KB) (queue : List QNode) (log : List Ev) (v : String) :
    processQNode fenv venv nF nV kb queue log ⟨.entity, v⟩ =
      processEntity fenv venv nF nV kb queue log v := rfl

theorem processQNode_log (fenv : Nat → FetchResp) (venv : Nat → ValResp)
    (nF nV : Nat) (kb : KB) (queue : List QNode) (log : List Ev) (current : QNode) :
    ((processQNode fenv venv nF nV kb queue log current).found = none →
      ∃ δ, (processQNode fenv venv nF nV kb queue log current).log = log ++ δ ∧
        ∀ c, Ev.valCall c true ∉ δ) ∧
    (∀ r, (processQNode fenv venv nF nV kb queue log current).found = some r →
      ∃ δ, (processQNode fenv venv nF nV kb queue log current).log =
          log ++ δ ++ [.valCall r true] ∧
        ∀ c, Ev.valCall c true ∉ δ) := by
  cases current with
  | mk t v =>
    cases t
    · rw [processQNode_location]
      constructor
      · intro _
        exact (processLocation_log fenv nF nV kb queue log v).2
      · intro r h
        rw [(processLocation_log fenv nF nV kb queue log v).1] at h
        exact absurd h (by simp)
    · rw [processQNode_entity]
      exact processEntity_log fenv venv nF nV kb queue log v

end Live
end BfsSearch
namespace BfsSearch
namespace Live

theorem searchLoop_none (fenv : Nat → FetchResp) (venv : Nat → ValResp)
    (fuel nF nV : Nat) (kb : KB) (queue : List QNode) (i : Nat) (log : List Ev)
    (h : queue[i]? = none) :
    searchLoop fenv venv (fuel + 1) nF nV kb queue i log = ⟨.noTarget, kb, queue, log⟩ := by
  conv_lhs => rw [searchLoop]
  rw [h]

theorem searchLoop_step (fenv : Nat → FetchResp) (venv : Nat → ValResp)
    (fuel nF nV : Nat) (kb : KB) (queue : List QNode) (i : Nat) (log : List Ev)
    (current : QNode) (h : queue[i]? = some current) :
    searchLoop fenv venv (fuel + 1) nF nV kb queue i log =
      (match processQNode fenv venv nF nV kb queue log current with
       | ⟨some r, kb2, queue2, _, _, log2⟩ => (⟨.found r, kb2, queue2, log2⟩ : LRunOut)
       | ⟨none, kb2, queue2, nF2, nV2, log2⟩ =>
          searchLoop fenv venv fuel nF2 nV2 kb2 queue2 (i + 1) log2) := by
  conv_lhs => rw [searchLoop]
  rw [h]

theorem searchLoop_log (fenv : Nat → FetchResp) (venv : Nat → ValResp) :
    ∀ (fuel nF nV : Nat) (kb : KB) (queue : List QNode) (i : Nat) (log : List Ev),
    (∀ c, Ev.valCall c true ∉ log) →
    ((∃ r δ, (searchLoop fenv venv fuel nF nV kb queue i log).result = .found r ∧
        (searchLoop fenv venv fuel nF nV kb queue i log).log = δ ++ [.valCall r true] ∧
        ∀ c, Ev.valCall c true ∉ δ) ∨
     ((∀ c, Ev.valCall c true ∉ (searchLoop fenv venv fuel nF nV kb queue i log).log) ∧
        ∀ r, (searchLoop fenv venv fuel nF nV kb queue i log).result ≠ .found r)) := by
  intro fuel
  induction fuel with
  | zero =>
    intro nF nV kb queue i log hlog
    right
    exact ⟨hlog, by intro r h; exact absurd h (by simp [searchLoop])⟩
  | succ n ih =>
    intro nF nV kb queue i log hlog
    cases hq : queue[i]? with
    | none =>
      right
      rw [searchLoop_none fenv venv n nF nV kb queue i log hq]
      exact ⟨hlog, by intro r h; exact absurd h (by simp)⟩
    | some current =>
      rw [searchLoop_step fenv venv n nF nV kb queue i log current hq]
      cases hs : processQNode fenv venv nF nV kb queue log current with
      | mk found kb2 queue2 nF2 nV2 log2 =>
        cases found with
        | some r =>
          obtain ⟨δ, hld, hδn⟩ :=
            (processQNode_log fenv venv nF nV kb queue log current).2 r (by rw [hs])
          rw [hs] at hld
          simp only at hld
          left
          refine ⟨r, log ++ δ, rfl, ?_, no_valCall_append log δ hlog hδn⟩
          show log2 = log ++ δ ++ [.valCall r true]
          exact hld
        | none =>
          obtain ⟨δ, hld, hδn⟩ :=
            (processQNode_log fenv venv nF nV kb queue log current).1 (by rw [hs])
          rw [hs] at hld
          simp only at hld
          have hlog2 : ∀ c, Ev.valCall c true ∉ log2 := by
            rw [hld]
            exact no_valCall_append log δ hlog hδn
          exact ih nF2 nV2 kb2 queue2 (i + 1) log2 hlog2

/-- Temporal property of the live-variant run: any successful validation
event is the final event of the run log, and the run result is exactly that
candidate. -/
theorem searchAgent_log (fenv : Nat → FetchResp) (venv : Nat → ValResp) (fuel : Nat)
    (l1 l2 : List Ev) (c : String)
    (h : (searchAgent fenv venv fuel).log = l1 ++ Ev.valCall c true :: l2) :
    l2 = [] ∧ (searchAgent fenv venv fuel).result = .found c := by
  have hrun : searchAgent fenv venv fuel =
      searchLoop fenv venv fuel 0 0
        ⟨[], [], ["NodeA", "NodeB"], [], [], []⟩
        [⟨.location, "NodeA"⟩, ⟨.location, "NodeB"⟩]
        0 [.push .location "NodeA", .push .location "NodeB"] := by
    unfold searchAgent
    rfl
  rw [hrun] at h ⊢
  rcases searchLoop_log fenv venv fuel 0 0
      ⟨[], [], ["NodeA", "NodeB"], [], [], []⟩
      [⟨.location, "NodeA"⟩, ⟨.location, "NodeB"⟩]
      0 [.push .location "NodeA", .push .location "NodeB"]
      (by intro c hc; simp at hc) with
    ⟨r, δ, hres, hlg, hδ⟩ | ⟨hno, hnf⟩
  · have hdec := append_single_eq_middle δ l1 l2 (.valCall r true) (.valCall c true)
      (by rw [← hlg, ← h]) (hδ c)
    refine ⟨hdec.1, ?_⟩
    rw [hres]
    have hrc : r = c := by
      have := hdec.2
      injection this
    rw [hrc]
  · exfalso
    exact hno c (by rw [h]; simp)

end Live
end BfsSearch
namespace BfsSearch
namespace Bfs

theorem shouldTest_initial (kb : KB) (p : String) (h : shouldTestLocation kb p = true) :
    INITIAL_CITIES.contains p = false := by
  unfold shouldTestLocation at h
  rw [Bool.and_eq_true] at h
  have h2 := h.2
  cases hc : INITIAL_CITIES.contains p
  · rfl
  · rw [hc] at h2; simp at h2

theorem guard_validate_append (δ1 δ2 : List Event)
    (h1 : ∀ c b, Event.validate c b ∈ δ1 → INITIAL_CITIES.contains c = false)
    (h2 : ∀ c b, Event.validate c b ∈ δ2 → INITIAL_CITIES.contains c = false) :
    ∀ c b, Event.validate c b ∈ δ1 ++ δ2 → INITIAL_CITIES.contains c = false := by
  intro c b hc
  rcases List.mem_append.1 hc with hc | hc
  · exact h1 c b hc
  · exact h2 c b hc

theorem pushPersons_no_validate (people : List String) :
    ∀ (kb : KB) (queue : List QueueNode) (log : List Event),
    ∃ δ, (pushPersons kb queue log people).log = log ++ δ ∧
      ∀ c b, Event.validate c b ∉ δ := by
  induction people with
  | nil =>
    intro kb queue log
    exact ⟨[], by simp [pushPersons], by intro c b hc; simp at hc⟩
  | cons p rest ih =>
    intro kb queue log
    unfold pushPersons
    by_cases hv : kb.visitedPeople.contains p = true
    · rw [if_pos hv]
      exact ih kb queue log
    · rw [if_neg hv]
      obtain ⟨δ, hδ, hn⟩ := ih { kb with visitedPeople := kb.visitedPeople ++ [p] }
        (queue ++ [⟨.person, p⟩]) (log ++ [.enqueue .person p])
      refine ⟨.enqueue .person p :: δ, by rw [hδ]; simp, ?_⟩
      intro c b hc
      rcases List.mem_cons.1 hc with hc | hc
      · simp at hc
      · exact hn c b hc

theorem processCity_no_validate (sugg : Nat → String) (k : Nat) (kb : KB)
    (queue : List QueueNode) (log : List Event) (value : String) :
    ∃ δ, (processCity sugg k kb queue log value).log = log ++ δ ∧
      ∀ c b, Event.validate c b ∉ δ := by
  unfold processCity
  cases hg : getData kb .places value with
  | mk res kb2 evs =>
    have hevs := getData_evs kb .places value
    rw [hg] at hevs
    simp only at hevs
    have hevn : ∀ c b, Event.validate c b ∉ evs := by
      rcases hevs with h | h <;> (subst h; intro c b hc; simp at hc)
    cases res with
    | some people =>
      obtain ⟨δ, hδ, hn⟩ := pushPersons_no_validate (prioritize people (up (sugg k)))
        { kb2 with cityPeople := setAssoc kb2.cityPeople value people }
        queue (log ++ evs ++ [.advise])
      refine ⟨evs ++ [.advise] ++ δ, ?_, ?_⟩
      · show (pushPersons _ _ _ _).log = _
        rw [hδ]
        simp
      · intro c b hc
        rcases List.mem_append.1 hc with hc | hc
        · rcases List.mem_append.1 hc with hc | hc
          · exact hevn c b hc
          · simp at hc
        · exact hn c b hc
    | none =>
      exact ⟨evs, rfl, hevn⟩

theorem testOnePlace_validate (kb : KB) (queue : List QueueNode) (log : List Event)
    (place : String) (hp : INITIAL_CITIES.contains place = false) :
    ∃ δ, (testOnePlace kb queue log place).log = log ++ δ ∧
      ∀ c b, Event.validate c b ∈ δ → INITIAL_CITIES.contains c = false := by
  have hev : ∀ c b, Event.validate c b ∈ (testLocation kb place).evs →
      INITIAL_CITIES.contains c = false := by
    rw [testLocation_evs]
    intro c b hc
    simp at hc
    rw [hc.1]
    exact hp
  unfold testOnePlace
  by_cases hok : (testLocation kb place).ok = true
  · rw [if_pos hok]
    exact ⟨(testLocation kb place).evs, rfl, hev⟩
  · rw [if_neg hok]
    by_cases hv : (testLocation kb place).kb.visitedCities.contains place = true
    · rw [if_pos hv]
      exact ⟨(testLocation kb place).evs, rfl, hev⟩
    · rw [if_neg hv]
      refine ⟨(testLocation kb place).evs ++ [.enqueue .city place], by simp, ?_⟩
      intro c b hc
      rcases List.mem_append.1 hc with hc | hc
      · exact hev c b hc
      · simp at hc

theorem testPlaces_validate (ai : String) (places : List String) :
    ∀ (kb : KB) (queue : List QueueNode) (log : List Event),
    ∃ δ, (testPlaces kb queue log ai places).log = log ++ δ ∧
      ∀ c b, Event.validate c b ∈ δ → INITIAL_CITIES.contains c = false := by
  induction places with
  | nil =>
    intro kb queue log
    exact ⟨[], by simp [testPlaces], by intro c b hc; simp at hc⟩
  | cons p rest ih =>
    intro kb queue log
    unfold testPlaces
    by_cases hg : (p != ai && shouldTestLocation kb p) = true
    · rw [if_pos hg]
      have hst : shouldTestLocation kb p = true := by
        rw [Bool.and_eq_true] at hg; exact hg.2
      have hpini := shouldTest_initial kb p hst
      cases hto : testOnePlace kb queue log p with
      | mk found kb2 queue2 log2 =>
        have h1 := testOnePlace_validate kb queue log p hpini
        rw [hto] at h1
        simp only at h1
        obtain ⟨δ1, hδ1, hn1⟩ := h1
        subst hδ1
        cases found with
        | some r2 =>
          exact ⟨δ1, rfl, hn1⟩
        | none =>
          obtain ⟨δ2, hδ2, hn2⟩ := ih kb2 queue2 (log ++ δ1)
          refine ⟨δ1 ++ δ2, ?_, guard_validate_append δ1 δ2 hn1 hn2⟩
          show (testPlaces kb2 queue2 (log ++ δ1) ai rest).log = log ++ (δ1 ++ δ2)
          rw [hδ2, List.append_assoc]
    · rw [if_neg hg]
      exact ih kb queue log

theorem personTests_validate (k : Nat) (kb : KB) (queue : List QueueNode)
    (log : List Event) (places : List String) (ai : String) :
    ∃ δ, (personTests k kb queue log places ai).log = log ++ δ ∧
      ∀ c b, Event.validate c b ∈ δ → INITIAL_CITIES.contains c = false := by
  unfold personTests
  by_cases hg : (places.contains ai && shouldTestLocation kb ai) = true
  · rw [if_pos hg]
    have hst : shouldTestLocation kb ai = true := by
      rw [Bool.and_eq_true] at hg; exact hg.2
    have haini := shouldTest_initial kb ai hst
    cases hto : testOnePlace kb queue log ai with
    | mk found kb2 queue2 log2 =>
      have h1 := testOnePlace_validate kb queue log ai haini
      rw [hto] at h1
      simp only at h1
      obtain ⟨δ1, hδ1, hn1⟩ := h1
      subst hδ1
      cases found with
      | some r2 =>
        exact ⟨δ1, rfl, hn1⟩
      | none =>
        obtain ⟨δ2, hδ2, hn2⟩ := testPlaces_validate ai places kb2 queue2 (log ++ δ1)
        refine ⟨δ1 ++ δ2, ?_, guard_validate_append δ1 δ2 hn1 hn2⟩
        show (testPlaces kb2 queue2 (log ++ δ1) ai places).log = log ++ (δ1 ++ δ2)
        rw [hδ2, List.append_assoc]
  · rw [if_neg hg]
    simp only
    exact testPlaces_validate ai places kb queue log

theorem processNode_validate (sugg : Nat → String) (k : Nat) (kb : KB)
    (queue : List QueueNode) (log : List Event) (current : QueueNode) :
    ∃ δ, (processNode sugg k kb queue log current).log = log ++ δ ∧
      ∀ c b, Event.validate c b ∈ δ → INITIAL_CITIES.contains c = false := by
  cases current with
  | mk t v =>
    cases t
    · rw [processNode_city]
      obtain ⟨δ, hδ, hn⟩ := processCity_no_validate sugg k kb queue log v
      exact ⟨δ, hδ, fun c b hc => absurd hc (hn c b)⟩
    · rw [processNode_person]
      unfold processPerson
      cases hg : getData kb .people v with
      | mk res kb2 evs =>
        have hevs := getData_evs kb .people v
        rw [hg] at hevs
        simp only at hevs
        have hevn : ∀ c b, Event.validate c b ∈ evs → INITIAL_CITIES.contains c = false := by
          rcases hevs with h | h <;> (subst h; intro c b hc; simp at hc)
        cases res with
        | some places =>
          obtain ⟨δ, hδ, hn⟩ := personTests_validate k
            { kb2 with peopleLocations := setAssoc kb2.peopleLocations v places }
            queue (log ++ evs ++ [.advise]) places (up (sugg k))
          refine ⟨evs ++ [.advise] ++ δ, ?_, ?_⟩
          · show (personTests _ _ _ _ _ _).log = _
            rw [hδ]
            simp
          · intro c b hc
            rcases List.mem_append.1 hc with hc | hc
            · rcases List.mem_append.1 hc with hc | hc
              · exact hevn c b hc
              · simp at hc
            · exact hn c b hc
        | none =>
          exact ⟨evs, rfl, hevn⟩

theorem loop_validate (sugg : Nat → String) :
    ∀ (fuel k : Nat) (kb : KB) (queue : List QueueNode) (i : Nat) (log : List Event),
    (∀ c b, Event.validate c b ∈ log → INITIAL_CITIES.contains c = false) →
    ∀ c b, Event.validate c b ∈ (loop sugg fuel k kb queue i log).log →
      INITIAL_CITIES.contains c = false := by
  intro fuel
  induction fuel with
  | zero =>
    intro k kb queue i log hlog
    exact hlog
  | succ n ih =>
    intro k kb queue i log hlog
    cases hq : queue[i]? with
    | none =>
      rw [loop_none sugg n k kb queue i log hq]
      exact hlog
    | some current =>
      rw [loop_step sugg n k kb queue i log current hq]
      obtain ⟨δ, hδ, hn⟩ := processNode_validate sugg k kb queue log current
      cases hs : processNode sugg k kb queue log current with
      | mk found k2 kb2 queue2 log2 =>
        rw [hs] at hδ
        simp only at hδ
        cases found with
        | some r =>
          rw [hδ]
          exact guard_validate_append log δ hlog hn
        | none =>
          show ∀ c b, Event.validate c b ∈ (loop sugg n k2 kb2 queue2 (i + 1) log2).log →
            INITIAL_CITIES.contains c = false
          apply ih
          rw [hδ]
          exact guard_validate_append log δ hlog hn

/-- Raw-identity exclusion of starting cities from validation: in every run,
every candidate passed to `testLocation` fails the raw membership test
against `INITIAL_CITIES`. -/
theorem runSearch_validate_not_initial (sugg : Nat → String) (fuel : Nat)
    (c : String) (b : Bool)
    (h : Event.validate c b ∈ (runSearch sugg fuel).log) :
    INITIAL_CITIES.contains c = false := by
  have hrun : runSearch sugg fuel =
      loop sugg fuel 1 ⟨[], [], ["Gdansk", "Poznan"], [], [], []⟩
        [⟨.city, "Gdansk"⟩, ⟨.city, "Poznan"⟩]
        0 [.advise, .enqueue .city "Gdansk", .enqueue .city "Poznan"] := by
    unfold runSearch
    rw [seedQueue_eq]
  rw [hrun] at h
  exact loop_validate sugg fuel 1 _ _ 0 _ (by intro c b hc; simp at hc) c b h

end Bfs
end BfsSearch
namespace BfsSearch
namespace Live

theorem shouldTestTarget_initial (kb : KB) (t : String) (h : shouldTestTarget kb t = true) :
    INITIAL_NODES.contains t = false := by
  unfold shouldTestTarget at h
  rw [Bool.and_eq_true] at h
  have h2 := h.2
  cases hc : INITIAL_NODES.contains t
  · rfl
  · rw [hc] at h2; simp at h2

theorem guard_valCall_append (δ1 δ2 : List Ev)
    (h1 : ∀ c b, Ev.valCall c b ∈ δ1 → INITIAL_NODES.contains c = false)
    (h2 : ∀ c b, Ev.valCall c b ∈ δ2 → INITIAL_NODES.contains c = false) :
    ∀ c b, Ev.valCall c b ∈ δ1 ++ δ2 → INITIAL_NODES.contains c = false := by
  intro c b hc
  rcases List.mem_append.1 hc with hc | hc
  · exact h1 c b hc
  · exact h2 c b hc

theorem testTarget_evs_cases (venv : Nat → ValResp) (nV : Nat) (kb : KB) (t : String) :
    (testTarget venv nV kb t).evs = [.valCall t false] ∨
    (testTarget venv nV kb t).evs = [.valReq t, .valCall t (isSuccessResp (venv nV))] := by
  unfold testTarget
  split
  · exact .inl rfl
  · exact .inr rfl

theorem testOneLoc_valCall (venv : Nat → ValResp) (nV : Nat) (kb : KB)
    (queue : List QNode) (log : List Ev) (loc : String)
    (hp : INITIAL_NODES.contains loc = false) :
    ∃ δ, (testOneLoc venv nV kb queue log loc).log = log ++ δ ∧
      ∀ c b, Ev.valCall c b ∈ δ → INITIAL_NODES.contains c = false := by
  have hev : ∀ c b, Ev.valCall c b ∈ (testTarget venv nV kb loc).evs →
      INITIAL_NODES.contains c = false := by
    rcases testTarget_evs_cases venv nV kb loc with h | h <;> rw [h] <;>
      (intro c b hc; simp at hc; rw [hc.1]; exact hp)
  unfold testOneLoc
  by_cases hok : (testTarget venv nV kb loc).ok = true
  · rw [if_pos hok]
    exact ⟨(testTarget venv nV kb loc).evs, rfl, hev⟩
  · rw [if_neg hok]
    by_cases hv : (testTarget venv nV kb loc).kb.visitedLocations.contains loc = true
    · rw [if_pos hv]
      exact ⟨(testTarget venv nV kb loc).evs, rfl, hev⟩
    · rw [if_neg hv]
      refine ⟨(testTarget venv nV kb loc).evs ++ [.push .location loc], by simp, ?_⟩
      intro c b hc
      rcases List.mem_append.1 hc with hc | hc
      · exact hev c b hc
      · simp at hc

theorem testLocs_valCall (venv : Nat → ValResp) (locations : List String) :
    ∀ (nV : Nat) (kb : KB) (queue : List QNode) (log : List Ev),
    ∃ δ, (testLocs venv nV kb queue log locations).log = log ++ δ ∧
      ∀ c b, Ev.valCall c b ∈ δ → INITIAL_NODES.contains c = false := by
  induction locations with
  | nil =>
    intro nV kb queue log
    exact ⟨[], by simp [testLocs], by intro c b hc; simp at hc⟩
  | cons loc rest ih =>
    intro nV kb queue log
    unfold testLocs
    by_cases hg : shouldTestTarget kb loc = true
    · rw [if_pos hg]
      have hpini := shouldTestTarget_initial kb loc hg
      cases hto : testOneLoc venv nV kb queue log loc with
      | mk found kb2 queue2 nV2 log2 =>
        have h1 := testOneLoc_valCall venv nV kb queue log loc hpini
        rw [hto] at h1
        simp only at h1
        obtain ⟨δ1, hδ1, hn1⟩ := h1
        subst hδ1
        cases found with
        | some r2 =>
          exact ⟨δ1, rfl, hn1⟩
        | none =>
          obtain ⟨δ2, hδ2, hn2⟩ := ih nV2 kb2 queue2 (log ++ δ1)
          refine ⟨δ1 ++ δ2, ?_, guard_valCall_append δ1 δ2 hn1 hn2⟩
          show (testLocs venv nV2 kb2 queue2 (log ++ δ1) rest).log = log ++ (δ1 ++ δ2)
          rw [hδ2, List.append_assoc]
    · rw [if_neg hg]
      exact ih nV kb queue log

theorem pushEntities_no_valCall (entities : List String) :
    ∀ (kb : KB) (queue : List QNode) (log : List Ev),
    ∃ δ, (pushEntities kb queue log entities).log = log ++ δ ∧
      ∀ c b, Ev.valCall c b ∉ δ := by
  induction entities with
  | nil =>
    intro kb queue log
    exact ⟨[], by simp [pushEntities], by intro c b hc; simp at hc⟩
  | cons x rest ih =>
    intro kb queue log
    unfold pushEntities
    by_cases hv : kb.visitedEntities.contains x = true
    · rw [if_pos hv]
      exact ih kb queue log
    · rw [if_neg hv]
      obtain ⟨δ, hδ, hn⟩ := ih { kb with visitedEntities := kb.visitedEntities ++ [x] }
        (queue ++ [⟨.entity, x⟩]) (log ++ [.push .entity x])
      refine ⟨.push .entity x :: δ, by rw [hδ]; simp, ?_⟩
      intro c b hc
      rcases List.mem_cons.1 hc with hc | hc
      · simp at hc
      · exact hn c b hc

theorem processQNode_valCall (fenv : Nat → FetchResp) (venv : Nat → ValResp)
    (nF nV : Nat) (kb : KB) (queue : List QNode) (log : List Ev) (current : QNode) :
    ∃ δ, (processQNode fenv venv nF nV kb queue log current).log = log ++ δ ∧
      ∀ c b, Ev.valCall c b ∈ δ → INITIAL_NODES.contains c = false := by
  cases current with
  | mk t v =>
    cases t
    · rw [processQNode_location]
      unfold processLocation
      cases hg : getData fenv nF kb .locations v with
      | mk res kb2 nF2 evs =>
        have hevs := getDataLive_evs fenv nF kb .locations v
        rw [hg] at hevs
        simp only at hevs
        have hevn : ∀ c b, Ev.valCall c b ∈ evs → INITIAL_NODES.contains c = false := by
          rcases hevs with h | h <;> (subst h; intro c b hc; simp at hc)
        cases res with
        | some entities =>
          obtain ⟨δ, hδ, hn⟩ := pushEntities_no_valCall entities
            { kb2 with locationEntities := setAssoc kb2.locationEntities v entities }
            queue (log ++ evs)
          refine ⟨evs ++ δ, ?_, ?_⟩
          · show (pushEntities _ _ _ _).log = _
            rw [hδ]
            simp
          · intro c b hc
            rcases List.mem_append.1 hc with hc | hc
            · exact hevn c b hc
            · exact absurd hc (hn c b)
        | none =>
          exact ⟨evs, rfl, hevn⟩
    · rw [processQNode_entity]
      unfold processEntity
      cases hg : getData fenv nF kb .entities v with
      | mk res kb2 nF2 evs =>
        have hevs := getDataLive_evs fenv nF kb .entities v
        rw [hg] at hevs
        simp only at hevs
        have hevn : ∀ c b, Ev.valCall c b ∈ evs → INITIAL_NODES.contains c = false := by
          rcases hevs with h | h <;> (subst h; intro c b hc; simp at hc)
        cases res with
        | some locations =>
          obtain ⟨δ, hδ, hn⟩ := testLocs_valCall venv locations nV
            { kb2 with entityLocations := setAssoc kb2.entityLocations v locations }
            queue (log ++ evs)
          refine ⟨evs ++ δ, ?_, ?_⟩
          · show (testLocs _ _ _ _ _ _).log = _
            rw [hδ]
            simp
          · intro c b hc
            rcases List.mem_append.1 hc with hc | hc
            · exact hevn c b hc
            · exact hn c b hc
        | none =>
          exact ⟨evs, rfl, hevn⟩

theorem searchLoop_valCall (fenv : Nat → FetchResp) (venv : Nat → ValResp) :
    ∀ (fuel nF nV : Nat) (kb : KB) (queue : List QNode) (i : Nat) (log : List Ev),
    (∀ c b, Ev.valCall c b ∈ log → INITIAL_NODES.contains c = false) →
    ∀ c b, Ev.valCall c b ∈ (searchLoop fenv venv fuel nF nV kb queue i log).log →
      INITIAL_NODES.contains c = false := by
  intro fuel
  induction fuel with
  | zero =>
    intro nF nV kb queue i log hlog
    exact hlog
  | succ n ih =>
    intro nF nV kb queue i log hlog
    cases hq : queue[i]? with
    | none =>
      rw [searchLoop_none fenv venv n nF nV kb queue i log hq]
      exact hlog
    | some current =>
      rw [searchLoop_step fenv venv n nF nV kb queue i log current hq]
      obtain ⟨δ, hδ, hn⟩ := processQNode_valCall fenv venv nF nV kb queue log current
      cases hs : processQNode fenv venv nF nV kb queue log current with
      | mk found kb2 queue2 nF2 nV2 log2 =>
        rw [hs] at hδ
        simp only at hδ
        cases found with
        | some r =>
          rw [hδ]
          exact guard_valCall_append log δ hlog hn
        | none =>
          show ∀ c b, Ev.valCall c b ∈
              (searchLoop fenv venv n nF2 nV2 kb2 queue2 (i + 1) log2).log →
            INITIAL_NODES.contains c = false
          apply ih
          rw [hδ]
          exact guard_valCall_append log δ hlog hn

/-- Raw-identity exclusion of starting nodes from validation in the live
variant: every candidate passed to `testTarget` in a run fails the raw
membership test against `INITIAL_NODES`. -/
theorem searchAgent_valCall_not_initial (fenv : Nat → FetchResp) (venv : Nat → ValResp)
    (fuel : Nat) (c : String) (b : Bool)
    (h : Ev.valCall c b ∈ (searchAgent fenv venv fuel).log) :
    INITIAL_NODES.contains c = false := by
  have hrun : searchAgent fenv venv fuel =
      searchLoop fenv venv fuel 0 0
        ⟨[], [], ["NodeA", "NodeB"], [], [], []⟩
        [⟨.location, "NodeA"⟩, ⟨.location, "NodeB"⟩]
        0 [.push .location "NodeA", .push .location "NodeB"] := by
    unfold searchAgent
    rfl
  rw [hrun] at h
  exact searchLoop_valCall fenv venv fuel 0 0 _ _ 0 _ (by intro c b hc; simp at hc) c b h

end Live
end BfsSearch
namespace BfsSearch
namespace Bfs

theorem contains_append_of_contains (l : List String) (x v : String)
    (h : l.contains v = true) : (l ++ [x]).contains v = true := by
  rw [contains_eq_decide] at h ⊢
  simp at h ⊢
  exact .inl h

theorem enqueueOnce_noenq (kb : KB) (log δ : List Event)
    (h : enqueueOnce kb log) (hδ : ∀ t v, Event.enqueue t v ∉ δ) :
    enqueueOnce kb (log ++ δ) := by
  intro v
  have hc : δ.count (Event.enqueue .city v) = 0 := List.count_eq_zero.2 (hδ .city v)
  have hp : δ.count (Event.enqueue .person v) = 0 := List.count_eq_zero.2 (hδ .person v)
  have := h v
  rw [List.count_append, List.count_append, hc, hp]
  simpa using this

theorem enqueueOnce_kb (kb kb' : KB) (log : List Event)
    (h : enqueueOnce kb log)
    (hc : kb'.visitedCities = kb.visitedCities)
    (hp : kb'.visitedPeople = kb.visitedPeople) :
    enqueueOnce kb' log := by
  intro v
  rw [hc, hp]
  exact h v

theorem enqueueOnce_push_city (kb : KB) (log : List Event) (place : String)
    (h : enqueueOnce kb log)
    (hv : kb.visitedCities.contains place = false) :
    enqueueOnce { kb with visitedCities := kb.visitedCities ++ [place] }
      (log ++ [.enqueue .city place]) := by
  intro v
  obtain ⟨⟨hc1, hc2⟩, hp1, hp2⟩ := h v
  by_cases hvp : v = place
  · subst hvp
    have hz : log.count (Event.enqueue .city v) = 0 := by
      cases hn : log.count (Event.enqueue .city v) with
      | zero => rfl
      | succ m =>
        have := hc2 (by omega)
        rw [hv] at this
        exact absurd this (by simp)
    constructor
    · constructor
      · rw [List.count_append, hz]
        simp
      · intro _
        rw [contains_eq_decide]
        simp
    · constructor
      · rw [List.count_append]
        have : List.count (Event.enqueue .person v) [Event.enqueue .city v] = 0 := by simp
        omega
      · intro hge
        rw [List.count_append] at hge
        have : List.count (Event.enqueue .person v) [Event.enqueue .city v] = 0 := by simp
        exact hp2 (by omega)
  · have hcv : List.count (Event.enqueue .city v) [Event.enqueue .city place] = 0 := by
      rw [List.count_eq_zero]
      intro hmem
      simp at hmem
      exact hvp hmem
    have hpv : List.count (Event.enqueue .person v) [Event.enqueue .city place] = 0 := by
      rw [List.count_eq_zero]
      intro hmem
      simp at hmem
    constructor
    · constructor
      · rw [List.count_append, hcv]
        omega
      · intro hge
        rw [List.count_append, hcv] at hge
        exact contains_append_of_contains _ _ _ (hc2 (by omega))
    · constructor
      · rw [List.count_append, hpv]
        omega
      · intro hge
        rw [List.count_append, hpv] at hge
        exact hp2 (by omega)

theorem enqueueOnce_push_person (kb : KB) (log : List Event) (p : String)
    (h : enqueueOnce kb log)
    (hv : kb.visitedPeople.contains p = false) :
    enqueueOnce { kb with visitedPeople := kb.visitedPeople ++ [p] }
      (log ++ [.enqueue .person p]) := by
  intro v
  obtain ⟨⟨hc1, hc2⟩, hp1, hp2⟩ := h v
  by_cases hvp : v = p
  · subst hvp
    have hz : log.count (Event.enqueue .person v) = 0 := by
      cases hn : log.count (Event.enqueue .person v) with
      | zero => rfl
      | succ m =>
        have := hp2 (by omega)
        rw [hv] at this
        exact absurd this (by simp)
    constructor
    · constructor
      · rw [List.count_append]
        have : List.count (Event.enqueue .city v) [Event.enqueue .person v] = 0 := by simp
        omega
      · intro hge
        rw [List.count_append] at hge
        have : List.count (Event.enqueue .city v) [Event.enqueue .person v] = 0 := by simp
        exact hc2 (by omega)
    · constructor
      · rw [List.count_append, hz]
        simp
      · intro _
        rw [contains_eq_decide]
        simp
  · have hcv : List.count (Event.enqueue .city v) [Event.enqueue .person p] = 0 := by
      rw [List.count_eq_zero]
      intro hmem
      simp at hmem
    have hpv : List.count (Event.enqueue .person v) [Event.enqueue .person p] = 0 := by
      rw [List.count_eq_zero]
      intro hmem
      simp at hmem
      exact hvp hmem
    constructor
    · constructor
      · rw [List.count_append, hcv]
        omega
      · intro hge
        rw [List.count_append, hcv] at hge
        exact hc2 (by omega)
    · constructor
      · rw [List.count_append, hpv]
        omega
      · intro hge
        rw [List.count_append, hpv] at hge
        exact contains_append_of_contains _ _ _ (hp2 (by omega))

end Bfs
end BfsSearch
namespace BfsSearch
namespace Bfs

theorem enqueueOnce_getData (kb : KB) (log : List Event) (e : Endpoint) (q : String)
    (h : enqueueOnce kb log) :
    enqueueOnce (getData kb e q).kb (log ++ (getData kb e q).evs) := by
  have hf := getData_fields kb e q
  have he := getData_evs kb e q
  apply enqueueOnce_kb kb _ _ _ hf.2.1 hf.2.2
  apply enqueueOnce_noenq kb log _ h
  rcases he with he | he <;> (rw [he]; intro t v hc; simp at hc)

theorem enqueueOnce_testLocation (kb : KB) (log : List Event) (loc : String)
    (h : enqueueOnce kb log) :
    enqueueOnce (testLocation kb loc).kb (log ++ (testLocation kb loc).evs) := by
  have hf := testLocation_fields kb loc
  apply enqueueOnce_kb kb _ _ _ hf.2.1 hf.2.2
  apply enqueueOnce_noenq kb log _ h
  rw [testLocation_evs]
  intro t v hc
  simp at hc

theorem enqueueOnce_testOnePlace (kb : KB) (queue : List QueueNode) (log : List Event)
    (place : String) (h : enqueueOnce kb log) :
    enqueueOnce (testOnePlace kb queue log place).kb (testOnePlace kb queue log place).log := by
  unfold testOnePlace
  by_cases hok : (testLocation kb place).ok = true
  · rw [if_pos hok]
    exact enqueueOnce_testLocation kb log place h
  · rw [if_neg hok]
    by_cases hv : (testLocation kb place).kb.visitedCities.contains place = true
    · rw [if_pos hv]
      exact enqueueOnce_testLocation kb log place h
    · rw [if_neg hv]
      have hvf : (testLocation kb place).kb.visitedCities.contains place = false := by
        cases hb : (testLocation kb place).kb.visitedCities.contains place
        · rfl
        · exact absurd hb hv
      exact enqueueOnce_push_city (testLocation kb place).kb
        (log ++ (testLocation kb place).evs) place
        (enqueueOnce_testLocation kb log place h) hvf

theorem enqueueOnce_testPlaces (ai : String) (places : List String) :
    ∀ (kb : KB) (queue : List QueueNode) (log : List Event),
    enqueueOnce kb log →
    enqueueOnce (testPlaces kb queue log ai places).kb
      (testPlaces kb queue log ai places).log := by
  induction places with
  | nil =>
    intro kb queue log h
    simpa [testPlaces] using h
  | cons p rest ih =>
    intro kb queue log h
    unfold testPlaces
    by_cases hg : (p != ai && shouldTestLocation kb p) = true
    · rw [if_pos hg]
      cases hto : testOnePlace kb queue log p with
      | mk found kb2 queue2 log2 =>
        have h1 := enqueueOnce_testOnePlace kb queue log p h
        rw [hto] at h1
        simp only at h1
        cases found with
        | some r2 => exact h1
        | none => exact ih kb2 queue2 log2 h1
    · rw [if_neg hg]
      exact ih kb queue log h

theorem enqueueOnce_pushPersons (people : List String) :
    ∀ (kb : KB) (queue : List QueueNode) (log : List Event),
    enqueueOnce kb log →
    enqueueOnce (pushPersons kb queue log people).kb (pushPersons kb queue log people).log := by
  induction people with
  | nil =>
    intro kb queue log h
    simpa [pushPersons] using h
  | cons p rest ih =>
    intro kb queue log h
    unfold pushPersons
    by_cases hv : kb.visitedPeople.contains p = true
    · rw [if_pos hv]
      exact ih kb queue log h
    · rw [if_neg hv]
      have hvf : kb.visitedPeople.contains p = false := by
        cases hb : kb.visitedPeople.contains p
        · rfl
        · exact absurd hb hv
      exact ih _ _ _ (enqueueOnce_push_person kb log p h hvf)

theorem enqueueOnce_processNode (sugg : Nat → String) (k : Nat) (kb : KB)
    (queue : List QueueNode) (log : List Event) (current : QueueNode)
    (h : enqueueOnce kb log) :
    enqueueOnce (processNode sugg k kb queue log current).kb
      (processNode sugg k kb queue log current).log := by
  cases current with
  | mk t v =>
    cases t
    · rw [processNode_city]
      unfold processCity
      cases hg : getData kb .places v with
      | mk res kb2 evs =>
        have h1 := enqueueOnce_getData kb log .places v h
        rw [hg] at h1
        simp only at h1
        cases res with
        | some people =>
          have h2 : enqueueOnce
              { kb2 with cityPeople := setAssoc kb2.cityPeople v people }
              (log ++ evs ++ [.advise]) := by
            apply enqueueOnce_kb kb2 _ _ _ rfl rfl
            apply enqueueOnce_noenq kb2 (log ++ evs) _ h1
            intro t v2 hc
            simp at hc
          show enqueueOnce
            (pushPersons { kb2 with cityPeople := setAssoc kb2.cityPeople v people } queue
              (log ++ evs ++ [.advise]) (prioritize people (up (sugg k)))).kb
            (pushPersons { kb2 with cityPeople := setAssoc kb2.cityPeople v people } queue
              (log ++ evs ++ [.advise]) (prioritize people (up (sugg k)))).log
          exact enqueueOnce_pushPersons _ _ _ _ h2
        | none => exact h1
    · rw [processNode_person]
      unfold processPerson
      cases hg : getData kb .people v with
      | mk res kb2 evs =>
        have h1 := enqueueOnce_getData kb log .people v h
        rw [hg] at h1
        simp only at h1
        cases res with
        | some places =>
          have h2 : enqueueOnce
              { kb2 with peopleLocations := setAssoc kb2.peopleLocations v places }
              (log ++ evs ++ [.advise]) := by
            apply enqueueOnce_kb kb2 _ _ _ rfl rfl
            apply enqueueOnce_noenq kb2 (log ++ evs) _ h1
            intro t v2 hc
            simp at hc
          show enqueueOnce
            (personTests k { kb2 with peopleLocations := setAssoc kb2.peopleLocations v places }
              queue (log ++ evs ++ [.advise]) places (up (sugg k))).kb
            (personTests k { kb2 with peopleLocations := setAssoc kb2.peopleLocations v places }
              queue (log ++ evs ++ [.advise]) places (up (sugg k))).log
          unfold personTests
          by_cases hai : (places.contains (up (sugg k)) &&
              shouldTestLocation { kb2 with peopleLocations := setAssoc kb2.peopleLocations v places }
                (up (sugg k))) = true
          · rw [if_pos hai]
            cases hto : testOnePlace
                { kb2 with peopleLocations := setAssoc kb2.peopleLocations v places }
                queue (log ++ evs ++ [.advise]) (up (sugg k)) with
            | mk found kb3 queue3 log3 =>
              have h3 := enqueueOnce_testOnePlace
                { kb2 with peopleLocations := setAssoc kb2.peopleLocations v places }
                queue (log ++ evs ++ [.advise]) (up (sugg k)) h2
              rw [hto] at h3
              simp only at h3
              cases found with
              | some r2 => exact h3
              | none =>
                show enqueueOnce (testPlaces kb3 queue3 log3 (up (sugg k)) places).kb
                  (testPlaces kb3 queue3 log3 (up (sugg k)) places).log
                exact enqueueOnce_testPlaces (up (sugg k)) places kb3 queue3 log3 h3
          · rw [if_neg hai]
            simp only
            show enqueueOnce
              (testPlaces { kb2 with peopleLocations := setAssoc kb2.peopleLocations v places }
                queue (log ++ evs ++ [.advise]) (up (sugg k)) places).kb
              (testPlaces { kb2 with peopleLocations := setAssoc kb2.peopleLocations v places }
                queue (log ++ evs ++ [.advise]) (up (sugg k)) places).log
            exact enqueueOnce_testPlaces (up (sugg k)) places _ _ _ h2
        | none => exact h1

theorem enqueueOnce_loop (sugg : Nat → String) :
    ∀ (fuel k : Nat) (kb : KB) (queue : List QueueNode) (i : Nat) (log : List Event),
    enqueueOnce kb log →
    enqueueOnce (loop sugg fuel k kb queue i log).kb (loop sugg fuel k kb queue i log).log := by
  intro fuel
  induction fuel with
  | zero =>
    intro k kb queue i log h
    exact h
  | succ n ih =>
    intro k kb queue i log h
    cases hq : queue[i]? with
    | none =>
      rw [loop_none sugg n k kb queue i log hq]
      exact h
    | some current =>
      rw [loop_step sugg n k kb queue i log current hq]
      have h1 := enqueueOnce_processNode sugg k kb queue log current h
      cases hs : processNode sugg k kb queue log current with
      | mk found k2 kb2 queue2 log2 =>
        rw [hs] at h1
        simp only at h1
        cases found with
        | some r => exact h1
        | none =>
          show enqueueOnce (loop sugg n k2 kb2 queue2 (i + 1) log2).kb
            (loop sugg n k2 kb2 queue2 (i + 1) log2).log
          exact ih k2 kb2 queue2 (i + 1) log2 h1

/-- At-most-once enqueue under exact raw (type, name) identity, for every
run of the simulated variant. -/
theorem runSearch_enqueue_once (sugg : Nat → String) (fuel : Nat)
    (t : NodeType) (v : String) :
    ((runSearch sugg fuel).log.count (Event.enqueue t v)) ≤ 1 := by
  have hrun : runSearch sugg fuel =
      loop sugg fuel 1 ⟨[], [], ["Gdansk", "Poznan"], [], [], []⟩
        [⟨.city, "Gdansk"⟩, ⟨.city, "Poznan"⟩]
        0 [.advise, .enqueue .city "Gdansk", .enqueue .city "Poznan"] := by
    unfold runSearch
    rw [seedQueue_eq]
  rw [hrun]
  have hseed : enqueueOnce ⟨[], [], ["Gdansk", "Poznan"], [], [], []⟩
      [.advise, .enqueue .city "Gdansk", .enqueue .city "Poznan"] := by
    intro v2
    refine ⟨⟨?_, ?_⟩, ?_, ?_⟩
    · by_cases h1 : v2 = "Gdansk"
      · subst h1; decide
      by_cases h2 : v2 = "Poznan"
      · subst h2; decide
      · have : List.count (Event.enqueue .city v2)
            [Event.advise, Event.enqueue .city "Gdansk", Event.enqueue .city "Poznan"] = 0 := by
          rw [List.count_eq_zero]
          intro hmem
          simp at hmem
          rcases hmem with hm | hm
          · exact h1 hm
          · exact h2 hm
        omega
    · intro hge
      by_cases h1 : v2 = "Gdansk"
      · subst h1; decide
      by_cases h2 : v2 = "Poznan"
      · subst h2; decide
      · have : List.count (Event.enqueue .city v2)
            [Event.advise, Event.enqueue .city "Gdansk", Event.enqueue .city "Poznan"] = 0 := by
          rw [List.count_eq_zero]
          intro hmem
          simp at hmem
          rcases hmem with hm | hm
          · exact h1 hm
          · exact h2 hm
        omega
    · have : List.count (Event.enqueue .person v2)
          [Event.advise, Event.enqueue .city "Gdansk", Event.enqueue .city "Poznan"] = 0 := by
        rw [List.count_eq_zero]
        intro hmem
        simp at hmem
      omega
    · intro hge
      have : List.count (Event.enqueue .person v2)
          [Event.advise, Event.enqueue .city "Gdansk", Event.enqueue .city "Poznan"] = 0 := by
        rw [List.count_eq_zero]
        intro hmem
        simp at hmem
      omega
  have hmain := enqueueOnce_loop sugg fuel 1
    ⟨[], [], ["Gdansk", "Poznan"], [], [], []⟩
    [⟨.city, "Gdansk"⟩, ⟨.city, "Poznan"⟩]
    0 [.advise, .enqueue .city "Gdansk", .enqueue .city "Poznan"] hseed
  cases t
  · exact (hmain v).1.1
  · exact (hmain v).2.1

end Bfs
end BfsSearch
namespace BfsSearch
namespace Bfs

/-- Cache-hit short-circuit of the simulated `getData`. -/
theorem getData_cached (kb : KB) (e : Endpoint) (q : String)
    (hc : kb.failedQueries.contains q = true) :
    getData kb e q = ⟨none, kb, []⟩ := by
  unfold getData
  rw [if_pos hc]

/-- In the simulated variant, a query with no (or empty) data is cached into
`failedQueries`. -/
theorem getData_none_cached (kb : KB) (e : Endpoint) (q : String)
    (hc : kb.failedQueries.contains q = false)
    (h : (getData kb e q).res = none) :
    (getData kb e q).kb.failedQueries = kb.failedQueries ++ [q] := by
  cases hsim : simData e q with
  | none =>
    have hgd : getData kb e q =
        ⟨none, { kb with failedQueries := kb.failedQueries ++ [q] }, [.lookup e q]⟩ := by
      unfold getData
      rw [if_neg (by rw [hc]; simp), hsim]
    rw [hgd]
  | some r =>
    by_cases hlen : 0 < r.length
    · have hgd : getData kb e q = ⟨some r, kb, [.lookup e q]⟩ := by
        unfold getData
        rw [if_neg (by rw [hc]; simp), hsim]
        show (if 0 < r.length then (⟨some r, kb, [.lookup e q]⟩ : GDOut)
          else ⟨none, { kb with failedQueries := kb.failedQueries ++ [q] },
            [.lookup e q]⟩) = ⟨some r, kb, [.lookup e q]⟩
        rw [if_pos hlen]
      rw [hgd] at h
      exact absurd h (by simp)
    · have hgd : getData kb e q =
          ⟨none, { kb with failedQueries := kb.failedQueries ++ [q] }, [.lookup e q]⟩ := by
        unfold getData
        rw [if_neg (by rw [hc]; simp), hsim]
        show (if 0 < r.length then (⟨some r, kb, [.lookup e q]⟩ : GDOut)
          else ⟨none, { kb with failedQueries := kb.failedQueries ++ [q] },
            [.lookup e q]⟩) = ⟨none, { kb with failedQueries := kb.failedQueries ++ [q] },
            [.lookup e q]⟩
        rw [if_neg hlen]
      rw [hgd]

/-- An already-tested candidate (under uppercasing) is rejected by
`testLocation` without any state change. -/
theorem testLocation_cached (kb : KB) (c : String)
    (hc : kb.testedLocations.contains (up c) = true) :
    testLocation kb c = ⟨false, kb, [.validate c false]⟩ := by
  unfold testLocation
  rw [if_pos hc]

end Bfs
end BfsSearch

/-! ### At-most-once enqueue for the live variant -/

namespace BfsSearch
namespace Live

theorem pushOnce_noenq (kb : KB) (log δ : List Ev)
    (h : pushOnce kb log) (hδ : ∀ t v, Ev.push t v ∉ δ) :
    pushOnce kb (log ++ δ) := by
  intro v
  have hc : δ.count (Ev.push .location v) = 0 := List.count_eq_zero.2 (hδ .location v)
  have hp : δ.count (Ev.push .entity v) = 0 := List.count_eq_zero.2 (hδ .entity v)
  have := h v
  rw [List.count_append, List.count_append, hc, hp]
  simpa using this

theorem pushOnce_kb (kb kb' : KB) (log : List Ev)
    (h : pushOnce kb log)
    (hl : kb'.visitedLocations = kb.visitedLocations)
    (he : kb'.visitedEntities = kb.visitedEntities) :
    pushOnce kb' log := by
  intro v
  rw [hl, he]
  exact h v

theorem pushOnce_push_location (kb : KB) (log : List Ev) (loc : String)
    (h : pushOnce kb log)
    (hv : kb.visitedLocations.contains loc = false) :
    pushOnce { kb with visitedLocations := kb.visitedLocations ++ [loc] }
      (log ++ [.push .location loc]) := by
  intro v
  obtain ⟨⟨hc1, hc2⟩, hp1, hp2⟩ := h v
  by_cases hvp : v = loc
  · subst hvp
    have hz : log.count (Ev.push .location v) = 0 := by
      cases hn : log.count (Ev.push .location v) with
      | zero => rfl
      | succ m =>
        have := hc2 (by omega)
        rw [hv] at this
        exact absurd this (by simp)
    constructor
    · constructor
      · rw [List.count_append, hz]
        simp
      · intro _
        rw [Bfs.contains_eq_decide]
        simp
    · constructor
      · rw [List.count_append]
        have : List.count (Ev.push .entity v) [Ev.push .location v] = 0 := by simp
        omega
      · intro hge
        rw [List.count_append] at hge
        have : List.count (Ev.push .entity v) [Ev.push .location v] = 0 := by simp
        exact hp2 (by omega)
  · have hcv : List.count (Ev.push .location v) [Ev.push .location loc] = 0 := by
      rw [List.count_eq_zero]
      intro hmem
      simp at hmem
      exact hvp hmem
    have hpv : List.count (Ev.push .entity v) [Ev.push .location loc] = 0 := by
      rw [List.count_eq_zero]
      intro hmem
      simp at hmem
    constructor
    · constructor
      · rw [List.count_append, hcv]
        omega
      · intro hge
        rw [List.count_append, hcv] at hge
        exact Bfs.contains_append_of_contains _ _ _ (hc2 (by omega))
    · constructor
      · rw [List.count_append, hpv]
        omega
      · intro hge
        rw [List.count_append, hpv] at hge
        exact hp2 (by omega)

theorem pushOnce_push_entity (kb : KB) (log : List Ev) (x : String)
    (h : pushOnce kb log)
    (hv : kb.visitedEntities.contains x = false) :
    pushOnce { kb with visitedEntities := kb.visitedEntities ++ [x] }
      (log ++ [.push .entity x]) := by
  intro v
  obtain ⟨⟨hc1, hc2⟩, hp1, hp2⟩ := h v
  by_cases hvp : v = x
  · subst hvp
    have hz : log.count (Ev.push .entity v) = 0 := by
      cases hn : log.count (Ev.push .entity v) with
      | zero => rfl
      | succ m =>
        have := hp2 (by omega)
        rw [hv] at this
        exact absurd this (by simp)
    constructor
    · constructor
      · rw [List.count_append]
        have : List.count (Ev.push .location v) [Ev.push .entity v] = 0 := by simp
        omega
      · intro hge
        rw [List.count_append] at hge
        have : List.count (Ev.push .location v) [Ev.push .entity v] = 0 := by simp
        exact hc2 (by omega)
    · constructor
      · rw [List.count_append, hz]
        simp
      · intro _
        rw [Bfs.contains_eq_decide]
        simp
  · have hcv : List.count (Ev.push .location v) [Ev.push .entity x] = 0 := by
      rw [List.count_eq_zero]
      intro hmem
      simp at hmem
    have hpv : List.count (Ev.push .entity v) [Ev.push .entity x] = 0 := by
      rw [List.count_eq_zero]
      intro hmem
      simp at hmem
      exact hvp hmem
    constructor
    · constructor
      · rw [List.count_append, hcv]
        omega
      · intro hge
        rw [List.count_append, hcv] at hge
        exact hc2 (by omega)
    · constructor
      · rw [List.count_append, hpv]
        omega
      · intro hge
        rw [List.count_append, hpv] at hge
        exact Bfs.contains_append_of_contains _ _ _ (hp2 (by omega))

theorem getDataLive_fields (fenv : Nat → FetchResp) (nF : Nat) (kb : KB)
    (e : EndpointT) (q : String) :
    (getData fenv nF kb e q).kb.visitedLocations = kb.visitedLocations ∧
    (getData fenv nF kb e q).kb.visitedEntities = kb.visitedEntities := by
  unfold getData
  split
  · exact ⟨rfl, rfl⟩
  · split
    · exact ⟨rfl, rfl⟩
    · exact ⟨rfl, rfl⟩
    · split
      · exact ⟨rfl, rfl⟩
      · split
        · exact ⟨rfl, rfl⟩
        · exact ⟨rfl, rfl⟩

theorem pushOnce_getDataLive (fenv : Nat → FetchResp) (nF : Nat) (kb : KB)
    (e : EndpointT) (q : String) (log : List Ev)
    (h : pushOnce kb log) :
    pushOnce (getData fenv nF kb e q).kb (log ++ (getData fenv nF kb e q).evs) := by
  have hf := getDataLive_fields fenv nF kb e q
  apply pushOnce_kb kb _ _ _ hf.1 hf.2
  apply pushOnce_noenq kb log _ h
  rcases getDataLive_evs fenv nF kb e q with he | he
  · rw [he]
    intro t v hc
    simp at hc
  · rw [he]
    intro t v hc
    simp at hc

theorem pushOnce_testTarget (venv : Nat → ValResp) (nV : Nat) (kb : KB)
    (log : List Ev) (t : String)
    (h : pushOnce kb log) :
    pushOnce (testTarget venv nV kb t).kb (log ++ (testTarget venv nV kb t).evs) := by
  unfold testTarget
  by_cases hmem : kb.testedTargets.contains t = true
  · rw [if_pos hmem]
    apply pushOnce_noenq kb log _ h
    intro t2 v hc
    simp at hc
  · rw [if_neg hmem]
    apply pushOnce_kb kb _ _ _ rfl rfl
    apply pushOnce_noenq kb log _ h
    intro t2 v hc
    simp at hc

theorem pushOnce_testOneLoc (venv : Nat → ValResp) (nV : Nat) (kb : KB)
    (queue : List QNode) (log : List Ev) (loc : String)
    (h : pushOnce kb log) :
    pushOnce (testOneLoc venv nV kb queue log loc).kb
      (testOneLoc venv nV kb queue log loc).log := by
  unfold testOneLoc
  by_cases hok : (testTarget venv nV kb loc).ok = true
  · rw [if_pos hok]
    exact pushOnce_testTarget venv nV kb log loc h
  · rw [if_neg hok]
    by_cases hv : (testTarget venv nV kb loc).kb.visitedLocations.contains loc = true
    · rw [if_pos hv]
      exact pushOnce_testTarget venv nV kb log loc h
    · rw [if_neg hv]
      have hvf : (testTarget venv nV kb loc).kb.visitedLocations.contains loc = false := by
        cases hb : (testTarget venv nV kb loc).kb.visitedLocations.contains loc
        · rfl
        · exact absurd hb hv
      exact pushOnce_push_location (testTarget venv nV kb loc).kb
        (log ++ (testTarget venv nV kb loc).evs) loc
        (pushOnce_testTarget venv nV kb log loc h) hvf

theorem pushOnce_testLocs (venv : Nat → ValResp) (locations : List String) :
    ∀ (nV : Nat) (kb : KB) (queue : List QNode) (log : List Ev),
    pushOnce kb log →
    pushOnce (testLocs venv nV kb queue log locations).kb
      (testLocs venv nV kb queue log locations).log := by
  induction locations with
  | nil =>
    intro nV kb queue log h
    simpa [testLocs] using h
  | cons loc rest ih =>
    intro nV kb queue log h
    unfold testLocs
    by_cases hg : shouldTestTarget kb loc = true
    · rw [if_pos hg]
      cases hto : testOneLoc venv nV kb queue log loc with
      | mk found kb2 queue2 nV2 log2 =>
        have h1 := pushOnce_testOneLoc venv nV kb queue log loc h
        rw [hto] at h1
        simp only at h1
        cases found with
        | some r => exact h1
        | none => exact ih nV2 kb2 queue2 log2 h1
    · rw [if_neg hg]
      exact ih nV kb queue log h

theorem pushOnce_pushEntities (entities : List String) :
    ∀ (kb : KB) (queue : List QNode) (log : List Ev),
    pushOnce kb log →
    pushOnce (pushEntities kb queue log entities).kb
      (pushEntities kb queue log entities).log := by
  induction entities with
  | nil =>
    intro kb queue log h
    simpa [pushEntities] using h
  | cons x rest ih =>
    intro kb queue log h
    unfold pushEntities
    by_cases hv : kb.visitedEntities.contains x = true
    · rw [if_pos hv]
      exact ih kb queue log h
    · rw [if_neg hv]
      have hvf : kb.visitedEntities.contains x = false := by
        cases hb : kb.visitedEntities.contains x
        · rfl
        · exact absurd hb hv
      exact ih _ _ _ (pushOnce_push_entity kb log x h hvf)

theorem pushOnce_processQNode (fenv : Nat → FetchResp) (venv : Nat → ValResp)
    (nF nV : Nat) (kb : KB) (queue : List QNode) (log : List Ev) (current : QNode)
    (h : pushOnce kb log) :
    pushOnce (processQNode fenv venv nF nV kb queue log current).kb
      (processQNode fenv venv nF nV kb queue log current).log := by
  cases current with
  | mk t v =>
    cases t
    · rw [processQNode_location]
      unfold processLocation
      cases hg : getData fenv nF kb .locations v with
      | mk res kb2 nF2 evs =>
        have h1 := pushOnce_getDataLive fenv nF kb .locations v log h
        rw [hg] at h1
        simp only at h1
        cases res with
        | some entities =>
          have h2 : pushOnce
              { kb2 with locationEntities := setAssoc kb2.locationEntities v entities }
              (log ++ evs) := by
            apply pushOnce_kb kb2 _ _ _ rfl rfl
            exact h1
          show pushOnce
            (pushEntities { kb2 with locationEntities := setAssoc kb2.locationEntities v entities }
              queue (log ++ evs) entities).kb
            (pushEntities { kb2 with locationEntities := setAssoc kb2.locationEntities v entities }
              queue (log ++ evs) entities).log
          exact pushOnce_pushEntities entities _ queue (log ++ evs) h2
        | none => exact h1
    · rw [processQNode_entity]
      unfold processEntity
      cases hg : getData fenv nF kb .entities v with
      | mk res kb2 nF2 evs =>
        have h1 := pushOnce_getDataLive fenv nF kb .entities v log h
        rw [hg] at h1
        simp only at h1
        cases res with
        | some locations =>
          have h2 : pushOnce
              { kb2 with entityLocations := setAssoc kb2.entityLocations v locations }
              (log ++ evs) := by
            apply pushOnce_kb kb2 _ _ _ rfl rfl
            exact h1
          show pushOnce
            (testLocs venv nV
              { kb2 with entityLocations := setAssoc kb2.entityLocations v locations }
              queue (log ++ evs) locations).kb
            (testLocs venv nV
              { kb2 with entityLocations := setAssoc kb2.entityLocations v locations }
              queue (log ++ evs) locations).log
          exact pushOnce_testLocs venv locations nV _ queue (log ++ evs) h2
        | none => exact h1

theorem pushOnce_searchLoop (fenv : Nat → FetchResp) (venv : Nat → ValResp) :
    ∀ (fuel nF nV : Nat) (kb : KB) (queue : List QNode) (i : Nat) (log : List Ev),
    pushOnce kb log →
    pushOnce (searchLoop fenv venv fuel nF nV kb queue i log).kb
      (searchLoop fenv venv fuel nF nV kb queue i log).log := by
  intro fuel
  induction fuel with
  | zero =>
    intro nF nV kb queue i log h
    exact h
  | succ n ih =>
    intro nF nV kb queue i log h
    cases hq : queue[i]? with
    | none =>
      rw [searchLoop_none fenv venv n nF nV kb queue i log hq]
      exact h
    | some current =>
      rw [searchLoop_step fenv venv n nF nV kb queue i log current hq]
      have h1 := pushOnce_processQNode fenv venv nF nV kb queue log current h
      cases hs : processQNode fenv venv nF nV kb queue log current with
      | mk found kb2 queue2 nF2 nV2 log2 =>
        rw [hs] at h1
        simp only at h1
        cases found with
        | some r => exact h1
        | none =>
          show pushOnce (searchLoop fenv venv n nF2 nV2 kb2 queue2 (i + 1) log2).kb
            (searchLoop fenv venv n nF2 nV2 kb2 queue2 (i + 1) log2).log
          exact ih nF2 nV2 kb2 queue2 (i + 1) log2 h1

/-- At-most-once enqueue under exact raw (type, name) identity, for every
run of the live variant. -/
theorem searchAgent_push_once (fenv : Nat → FetchResp) (venv : Nat → ValResp)
    (fuel : Nat) (t : NodeT) (v : String) :
    ((searchAgent fenv venv fuel).log.count (Ev.push t v)) ≤ 1 := by
  have hrun : searchAgent fenv venv fuel =
      searchLoop fenv venv fuel 0 0 ⟨[], [], ["NodeA", "NodeB"], [], [], []⟩
        [⟨.location, "NodeA"⟩, ⟨.location, "NodeB"⟩] 0
        [.push .location "NodeA", .push .location "NodeB"] := by
    unfold searchAgent
    rfl
  rw [hrun]
  have hseed : pushOnce ⟨[], [], ["NodeA", "NodeB"], [], [], []⟩
      [.push .location "NodeA", .push .location "NodeB"] := by
    intro v2
    refine ⟨⟨?_, ?_⟩, ?_, ?_⟩
    · by_cases h1 : v2 = "NodeA"
      · subst h1; decide
      by_cases h2 : v2 = "NodeB"
      · subst h2; decide
      · have : List.count (Ev.push .location v2)
            [Ev.push .location "NodeA", Ev.push .location "NodeB"] = 0 := by
          rw [List.count_eq_zero]
          intro hmem
          simp at hmem
          rcases hmem with hm | hm
          · exact h1 hm
          · exact h2 hm
        omega
    · intro hge
      by_cases h1 : v2 = "NodeA"
      · subst h1; decide
      by_cases h2 : v2 = "NodeB"
      · subst h2; decide
      · have : List.count (Ev.push .location v2)
            [Ev.push .location "NodeA", Ev.push .location "NodeB"] = 0 := by
          rw [List.count_eq_zero]
          intro hmem
          simp at hmem
          rcases hmem with hm | hm
          · exact h1 hm
          · exact h2 hm
        omega
    · have : List.count (Ev.push .entity v2)
          [Ev.push .location "NodeA", Ev.push .location "NodeB"] = 0 := by
        rw [List.count_eq_zero]
        intro hmem
        simp at hmem
      omega
    · intro hge
      have : List.count (Ev.push .entity v2)
          [Ev.push .location "NodeA", Ev.push .location "NodeB"] = 0 := by
        rw [List.count_eq_zero]
        intro hmem
        simp at hmem
      omega
  have hmain := pushOnce_searchLoop fenv venv fuel 0 0
    ⟨[], [], ["NodeA", "NodeB"], [], [], []⟩
    [⟨.location, "NodeA"⟩, ⟨.location, "NodeB"⟩] 0
    [.push .location "NodeA", .push .location "NodeB"] hseed
  cases t
  · exact (hmain v).1.1
  · exact (hmain v).2.1

end Live
end BfsSearch

namespace BfsSearch

/-! ### Claim theorems -/

/-- Claim C1: for every Advisor behaviour — any sequence of suggestion
strings or transport failures — running the search on the fixed simulated
relation with starting nodes Gdansk/Poznan and target OLSZTYN terminates
and returns OLSZTYN (six loop iterations suffice, at any larger budget). -/
theorem c1_search_always_returns_olsztyn (adv : Nat → Bfs.AdvResp) (fuel : Nat) :
    (Bfs.agentLoop adv (fuel + 6)).result = Bfs.RunResult.found "OLSZTYN" :=
  Bfs.runSearch_finds (fun k => Bfs.askModel (adv k)) fuel

/-- Claim C2 (counterexample): contrary to the claim, the Validator is
called on a fixed starting node under case-normalized identity: the
fallback-advisor run calls the test operation on `GDANSK`, and the
normalized name `GDANSK` is among the normalized `INITIAL_CITIES` names. -/
theorem c2_counterexample_start_city_validated :
    Bfs.Event.validate "GDANSK" false ∈ (Bfs.runSearch (fun _ => "ECHO") 8).log ∧
    (Bfs.INITIAL_CITIES.map up).contains (up "GDANSK") = true :=
  ⟨by decide, by decide⟩

/-- Claim C2 (amended): in every run of either variant, no candidate whose
raw (unnormalized) name is a member of the starting-node set is ever passed
to the test operation. -/
theorem c2_amended_raw_start_never_validated :
    (∀ (sugg : Nat → String) (fuel : Nat) (c : String) (b : Bool),
      Bfs.Event.validate c b ∈ (Bfs.runSearch sugg fuel).log →
      Bfs.INITIAL_CITIES.contains c = false) ∧
    (∀ (fenv : Nat → Live.FetchResp) (venv : Nat → Live.ValResp) (fuel : Nat)
      (c : String) (b : Bool),
      Live.Ev.valCall c b ∈ (Live.searchAgent fenv venv fuel).log →
      Live.INITIAL_NODES.contains c = false) :=
  ⟨Bfs.runSearch_validate_not_initial, Live.searchAgent_valCall_not_initial⟩

/-- Witness for the amended claim C2 at a concrete run. -/
theorem c2_amended_witness : Bfs.INITIAL_CITIES.contains "GDANSK" = false :=
  c2_amended_raw_start_never_validated.1 (fun _ => "ECHO") 8 "GDANSK" false (by decide)

/-- Claim C3 (counterexample): in the simulated variant, a query whose
lookup yields no names is recorded into `failedQueries`, so the cache after
the call differs from before. -/
theorem c3_counterexample_empty_result_cached :
    (Bfs.getData Bfs.KB.init .places "NOWHERE").res = none ∧
    (Bfs.getData Bfs.KB.init .places "NOWHERE").kb.failedQueries = ["NOWHERE"] :=
  ⟨by decide, by decide⟩

/-- Claim C3 (amended): the live variant returns absent on an empty name
sequence without touching `failedQueries`; the simulated variant instead
caches any query that yields no names into `failedQueries`. -/
theorem c3_amended_empty_result_caching :
    (∀ (fenv : Nat → Live.FetchResp) (nF : Nat) (kb : Live.KB)
      (e : Live.EndpointT) (q m : String),
      kb.failedQueries.contains q = false →
      fenv nF = .ok (some m) →
      Live.isErrorResponse m = false →
      jsTokens m = [] →
      Live.getData fenv nF kb e q = ⟨none, kb, nF + 1, [.fetchReq e q]⟩) ∧
    (∀ (kb : Bfs.KB) (e : Bfs.Endpoint) (q : String),
      kb.failedQueries.contains q = false →
      (Bfs.getData kb e q).res = none →
      (Bfs.getData kb e q).kb.failedQueries = kb.failedQueries ++ [q]) :=
  ⟨Live.getData_empty_not_cached, Bfs.getData_none_cached⟩

/-- Witness for the amended claim C3 at a concrete empty response. -/
theorem c3_amended_witness :
    Live.getData (fun _ => .ok (some " ")) 0 Live.KB.init .entities "q" =
      ⟨none, Live.KB.init, 1, [.fetchReq .entities "q"]⟩ :=
  c3_amended_empty_result_caching.1 (fun _ => .ok (some " ")) 0 Live.KB.init
    .entities "q" " " (by decide) rfl (by decide) (by decide)

/-- Claim C4 (counterexample): one normalized node identity — the city name
`GDANSK` — is enqueued twice in the fallback-advisor run: once as the
mixed-case seed `Gdansk` and once as the upper-case `GDANSK`. -/
theorem c4_counterexample_normalized_identity_enqueued_twice :
    ((Bfs.runSearch (fun _ => "ECHO") 8).log.filter
      (fun ev => match ev with
        | .enqueue t v => t == Bfs.NodeType.city && up v == "GDANSK"
        | _ => false)).length = 2 :=
  by decide

/-- Claim C4 (amended): in every run of either variant, each exact raw
(type, name) node identity is enqueued onto the frontier at most once. -/
theorem c4_amended_enqueue_at_most_once_raw :
    (∀ (sugg : Nat → String) (fuel : Nat) (t : Bfs.NodeType) (v : String),
      ((Bfs.runSearch sugg fuel).log.count (Bfs.Event.enqueue t v)) ≤ 1) ∧
    (∀ (fenv : Nat → Live.FetchResp) (venv : Nat → Live.ValResp) (fuel : Nat)
      (t : Live.NodeT) (v : String),
      ((Live.searchAgent fenv venv fuel).log.count (Live.Ev.push t v)) ≤ 1) :=
  ⟨Bfs.runSearch_enqueue_once, Live.searchAgent_push_once⟩

/-- Claim C5: in both variants, if a Validator test call returns true, it is
the final observable interaction of the run and the search returns exactly
that candidate. -/
theorem c5_success_is_final_and_returned :
    (∀ (sugg : Nat → String) (fuel : Nat) (l1 l2 : List Bfs.Event) (c : String),
      (Bfs.runSearch sugg fuel).log = l1 ++ Bfs.Event.validate c true :: l2 →
      l2 = [] ∧ (Bfs.runSearch sugg fuel).result = .found c) ∧
    (∀ (fenv : Nat → Live.FetchResp) (venv : Nat → Live.ValResp) (fuel : Nat)
      (l1 l2 : List Live.Ev) (c : String),
      (Live.searchAgent fenv venv fuel).log = l1 ++ Live.Ev.valCall c true :: l2 →
      l2 = [] ∧ (Live.searchAgent fenv venv fuel).result = .found c) :=
  ⟨Bfs.runSearch_log, Live.searchAgent_log⟩

/-- Witness for claim C5 at a concrete run whose last event is the
successful validation of OLSZTYN. -/
theorem c5_witness :
    ([] : List Bfs.Event) = [] ∧
      (Bfs.runSearch (fun _ => "ECHO") 8).result = .found "OLSZTYN" :=
  c5_success_is_final_and_returned.1 (fun _ => "ECHO") 8
    [.advise, .enqueue .city "Gdansk", .enqueue .city "Poznan",
     .lookup .places "Gdansk", .advise,
     .enqueue .person "ECHO", .enqueue .person "MONIKA", .enqueue .person "PAWEL",
     .lookup .places "Poznan", .advise,
     .enqueue .person "MARCIN", .enqueue .person "TOMASZ",
     .lookup .people "ECHO", .advise,
     .validate "GDANSK" false, .enqueue .city "GDANSK",
     .validate "POZNAN" false, .enqueue .city "POZNAN",
     .validate "WARSZAWA" false, .enqueue .city "WARSZAWA",
     .validate "WROCLAW" false, .enqueue .city "WROCLAW"]
    [] "OLSZTYN" (by decide)

/-- Claim C6 (counterexample): classification is case-sensitive, so the
message `Restricted` is not classified as a semantic failure — the fetch
returns it as a name and leaves `failedQueries` untouched. -/
theorem c6_counterexample_uppercase_keyword_not_classified :
    Live.getData (fun _ => .ok (some "Restricted")) 0 Live.KB.init .entities "q" =
      ⟨some ["Restricted"], Live.KB.init, 1, [.fetchReq .entities "q"]⟩ ∧
    Live.isErrorResponse "Restricted" = false :=
  ⟨by decide, by decide⟩

/-- Claim C6 (amended): a response is classified as a semantic failure
exactly when it contains a restriction keyword as a case-SENSITIVE
substring; classified responses are cached into `failedQueries` and yield
absent; `restricted` is classified while `Restricted` is not. -/
theorem c6_amended_case_sensitive_classification :
    (∀ m : String, Live.isErrorResponse m = true ↔
      ∃ k ∈ Live.ERROR_KEYWORDS, ∃ pre suf, m.data = pre ++ k.data ++ suf) ∧
    (∀ (fenv : Nat → Live.FetchResp) (nF : Nat) (kb : Live.KB)
      (e : Live.EndpointT) (q m : String),
      kb.failedQueries.contains q = false →
      fenv nF = .ok (some m) →
      Live.isErrorResponse m = true →
      Live.getData fenv nF kb e q =
        ⟨none, { kb with failedQueries := kb.failedQueries ++ [q] }, nF + 1,
         [.fetchReq e q]⟩) ∧
    (Live.isErrorResponse "restricted" = true ∧
     Live.isErrorResponse "Restricted" = false) :=
  ⟨Live.isErrorResponse_iff, Live.getData_classified, by decide, by decide⟩

/-- Witness for the amended claim C6 at a concrete classified response. -/
theorem c6_amended_witness :
    Live.getData (fun _ => .ok (some "no data")) 0 Live.KB.init .entities "q" =
      ⟨none, { Live.KB.init with failedQueries := ["q"] }, 1, [.fetchReq .entities "q"]⟩ :=
  c6_amended_case_sensitive_classification.2.1 (fun _ => .ok (some "no data")) 0
    Live.KB.init .entities "q" "no data" (by decide) rfl (by decide)

/-- Claim C7: the Validator performs at most one external call per
candidate: an already-tested candidate is rejected with no call and no
state change; a fresh candidate is marked tested before the call; a second
test of the same candidate is always a no-call rejection.  The simulated
variant deduplicates the same way (with no external call at all). -/
theorem c7_validator_external_call_at_most_once :
    (∀ (venv : Nat → Live.ValResp) (nV : Nat) (kb : Live.KB) (c : String),
      kb.testedTargets.contains c = true →
      Live.testTarget venv nV kb c = ⟨false, kb, nV, [.valCall c false]⟩) ∧
    (∀ (venv : Nat → Live.ValResp) (nV : Nat) (kb : Live.KB) (c : String),
      kb.testedTargets.contains c = false →
      (Live.testTarget venv nV kb c).kb.testedTargets.contains c = true ∧
      (Live.testTarget venv nV kb c).kb.testedTargets = kb.testedTargets ++ [c] ∧
      (Live.testTarget venv nV kb c).evs =
        [.valReq c, .valCall c (Live.isSuccessResp (venv nV))]) ∧
    (∀ (venv : Nat → Live.ValResp) (nV : Nat) (kb : Live.KB) (c : String),
      Live.testTarget venv (Live.testTarget venv nV kb c).nV
          (Live.testTarget venv nV kb c).kb c =
        ⟨false, (Live.testTarget venv nV kb c).kb, (Live.testTarget venv nV kb c).nV,
         [.valCall c false]⟩) ∧
    (∀ (kb : Bfs.KB) (c : String),
      kb.testedLocations.contains (up c) = true →
      Bfs.testLocation kb c = ⟨false, kb, [.validate c false]⟩) :=
  ⟨Live.testTarget_cached, Live.testTarget_fresh, Live.testTarget_second,
   Bfs.testLocation_cached⟩

/-- Witness for claim C7 at a concrete already-tested candidate. -/
theorem c7_witness :
    Live.testTarget (fun _ => .err) 0 ⟨[], [], [], [], ["X"], []⟩ "X" =
      ⟨false, ⟨[], [], [], [], ["X"], []⟩, 0, [.valCall "X" false]⟩ :=
  c7_validator_external_call_at_most_once.1 (fun _ => .err) 0
    ⟨[], [], [], [], ["X"], []⟩ "X" (by decide)

/-- Claim C8: once a query is cached in `failedQueries`, the fetch returns
absent with zero external requests and an unchanged knowledge base, in both
variants — so a repeated call has the same effect as a single one. -/
theorem c8_cached_failure_short_circuits :
    (∀ (fenv : Nat → Live.FetchResp) (nF : Nat) (kb : Live.KB)
      (e : Live.EndpointT) (q : String),
      kb.failedQueries.contains q = true →
      Live.getData fenv nF kb e q = ⟨none, kb, nF, []⟩) ∧
    (∀ (kb : Bfs.KB) (e : Bfs.Endpoint) (q : String),
      kb.failedQueries.contains q = true →
      Bfs.getData kb e q = ⟨none, kb, []⟩) :=
  ⟨Live.getDataLive_cached, Bfs.getData_cached⟩

/-- Witness for claim C8 at a concrete cached query. -/
theorem c8_witness :
    Bfs.getData ⟨[], [], [], [], [], ["q"]⟩ .places "q" =
      ⟨none, ⟨[], [], [], [], [], ["q"]⟩, []⟩ :=
  c8_cached_failure_short_circuits.2 ⟨[], [], [], [], [], ["q"]⟩ .places "q" (by decide)

/-- Claim C9: a run in which every Advisor call raises a transport failure
is identical, step by step, to a run in which every Advisor call returns
the fixed fallback token `ECHO`; such a run also terminates normally,
returning OLSZTYN. -/
theorem c9_advisor_failsoft_equivalence :
    (∀ fuel : Nat, Bfs.agentLoop (fun _ => .failure) fuel =
      Bfs.agentLoop (fun _ => .ok "ECHO") fuel) ∧
    (Bfs.agentLoop (fun _ => .failure) 8).result = .found "OLSZTYN" := by
  constructor
  · intro fuel
    unfold Bfs.agentLoop
    have h : (fun k : Nat => Bfs.askModel ((fun _ => Bfs.AdvResp.failure) k)) =
        (fun k : Nat => Bfs.askModel ((fun _ => Bfs.AdvResp.ok "ECHO") k)) := by
      funext k
      show Bfs.askModel .failure = Bfs.askModel (.ok "ECHO")
      decide
    rw [h]
  · decide

/-- Claim C10: the simulated variant's failure cache is keyed by the raw
query while the lookup upper-cases it: the queries `Nowhere` and `NOWHERE`
resolve to the same (absent) table entry, yet the recorded failure for
`Nowhere` does not short-circuit the later fetch of `NOWHERE`, which issues
its own lookup and records its own cache entry. -/
theorem c10_failure_cache_keyed_raw :
    up "Nowhere" = up "NOWHERE" ∧
    Bfs.simData .places "Nowhere" = Bfs.simData .places "NOWHERE" ∧
    (Bfs.getData Bfs.KB.init .places "Nowhere").kb.failedQueries = ["Nowhere"] ∧
    (Bfs.getData (Bfs.getData Bfs.KB.init .places "Nowhere").kb .places "NOWHERE").evs =
      [.lookup .places "NOWHERE"] ∧
    (Bfs.getData (Bfs.getData Bfs.KB.init .places "Nowhere").kb
        .places "NOWHERE").kb.failedQueries = ["Nowhere", "NOWHERE"] :=
  ⟨by decide, by decide, by decide, by decide, by decide⟩

end BfsSearch
